import Mathlib

/-!
# Verification of the modeldrop simulation core

Shallow embedding of `src/modeldrop/basemodel.py` (class `BaseModel` and the
module-level helper functions), over which the spec's claims are settled.

Conventions of the embedding:
* Python `AttrDict` (an insertion-ordered `dict` with attribute access) is
  embedded as `Dict α := List (String × α)`: an insertion-ordered association
  list.  `get?`/`set`/`modify?` mirror `d[k]`, `d[k] = v` and read-modify-write;
  a read or read-modify-write of an absent key is a Python `KeyError`, embedded
  as `Option`/`none`.
* Python floats are embedded as `Fl`: either a finite value (idealised as a
  rational `ℚ`) or `nan`, which stands for any non-finite float (NaN or ±inf);
  arithmetic propagates `nan`, mirroring IEEE propagation for the operations
  the core uses.  `math.isfinite` becomes `Fl.isfinite`.
* Purely algebraic helpers (`make_cutoff_fn`, flows) are embedded over `ℚ`
  directly, since the claims about them are exact algebraic statements.
* Exceptions are embedded as `Except`/`Option` results.
-/

namespace Modeldrop

/-! # PART 1 — Definitions (embedded from the source) -/

/-- Insertion-ordered association list embedding Python's `AttrDict`/`dict`
with string keys. -/
abbrev Dict (α : Type) := List (String × α)

namespace Dict

/-- `d[k]`, returning `none` where Python raises `KeyError`. -/
def get? (d : Dict α) (k : String) : Option α :=
  match d with
  | [] => none
  | (k', v) :: rest => if k' = k then some v else get? rest k

/-- `k in d`. -/
def hasKey (d : Dict α) (k : String) : Bool :=
  match d with
  | [] => false
  | (k', _) :: rest => k' = k || hasKey rest k

/-- `d[k] = v`: overwrite the entry if the key is present (keeping its
position, as Python dicts do), else append at the end. -/
def set (d : Dict α) (k : String) (v : α) : Dict α :=
  match d with
  | [] => [(k, v)]
  | (k', v') :: rest => if k' = k then (k', v) :: rest else (k', v') :: set rest k v

/-- `d[k] = f d[k]` (e.g. `d[k] += x`): `none` when the key is absent, where
Python raises `KeyError` on the read. -/
def modify? (d : Dict α) (k : String) (f : α → α) : Option (Dict α) :=
  match d with
  | [] => none
  | (k', v) :: rest =>
    if k' = k then some ((k', f v) :: rest)
    else (modify? rest k f).map ((k', v) :: ·)

/-- `list(d.keys())` in insertion order. -/
def keys (d : Dict α) : List String := d.map Prod.fst

end Dict

/-! ## Embedding of Python float values

`Fl.nan` stands for any non-finite float (NaN, +inf, -inf).  Addition and
multiplication of a non-finite value with anything is again non-finite for the
operations the core performs, so `nan` absorbs. -/

inductive Fl where
  | num (q : ℚ)
  | nan
  deriving DecidableEq, Repr

namespace Fl

def add : Fl → Fl → Fl
  | num a, num b => num (a + b)
  | _, _ => nan

def mul : Fl → Fl → Fl
  | num a, num b => num (a * b)
  | _, _ => nan

instance : Add Fl := ⟨add⟩
instance : Mul Fl := ⟨mul⟩
instance : Inhabited Fl := ⟨nan⟩

/-- `math.isfinite`. -/
def isfinite : Fl → Bool
  | num _ => true
  | nan => false

end Fl

/-! ## `float_range` (basemodel.py lines 16–19)

```python
def float_range(start, stop, step):
    while start < stop:
        yield float(start)
        start += step
```

The generator is total only for `0 < step`; for `step ≤ 0` and `start < stop`
the Python loop never terminates, which we embed as the empty list guarded by
`0 < step` (no claim touches that regime). -/

def float_range (start stop step : ℚ) : List ℚ :=
  if h : 0 < step then
    if h2 : start < stop then
      start :: float_range (start + step) stop step
    else []
  else []
termination_by (⌈(stop - start) / step⌉).toNat
decreasing_by
  have hpos : 0 < (stop - start) / step := div_pos (by linarith) h
  have h1 : (1 : ℤ) ≤ ⌈(stop - start) / step⌉ := Int.ceil_pos.mpr hpos
  have heq : ⌈(stop - (start + step)) / step⌉ = ⌈(stop - start) / step⌉ - 1 := by
    have : (stop - (start + step)) / step = (stop - start) / step - 1 := by
      field_simp
      ring
    rw [this, Int.ceil_sub_one]
  rw [heq]
  omega

/-! ## Flow accumulator (`BaseModel.add_to_dvars_from_flows`, lines 102–118)

```python
def add_to_dvars_from_flows(self):
    flows = []
    if len(self.aux_var_flows):
        for (from_key, to_key, aux_var_key) in self.aux_var_flows:
            val = self.aux_var[aux_var_key]
            flows.append([from_key, to_key, val])
    if len(self.param_flows):
        for (from_key, to_key, param_key) in self.param_flows:
            val = self.param[param_key]
            flows.append([from_key, to_key, val])
    if len(flows):
        for (from_key, to_key, val) in flows:
            self.dvar[from_key] -= val
            self.dvar[to_key] += val
```

Flow rates are exact algebra on the shared looked-up value, so they are
embedded over `ℚ`.  A `KeyError` (absent rate reference or absent endpoint in
`dvar`) is embedded as `none`. -/

/-- A flow declaration `(from_key, to_key, rate_key)`. -/
abbrev FlowDecl := String × String × String

/-- A resolved flow `(from_key, to_key, val)` as appended to `flows`. -/
abbrev Flow := String × String × ℚ

/-- Lines 105–108: resolve each aux-var flow's rate from the auxiliary
vector. -/
def resolve_aux_var_flows : List FlowDecl → Dict ℚ → Option (List Flow)
  | [], _ => some []
  | d :: rest, aux_var => do
    let v ← Dict.get? aux_var d.2.2
    let tail ← resolve_aux_var_flows rest aux_var
    pure ((d.1, d.2.1, v) :: tail)

/-- Lines 110–113: resolve each param flow's rate from the parameter set. -/
def resolve_param_flows : List FlowDecl → Dict ℚ → Option (List Flow)
  | [], _ => some []
  | d :: rest, param => do
    let v ← Dict.get? param d.2.2
    let tail ← resolve_param_flows rest param
    pure ((d.1, d.2.1, v) :: tail)

/-- Lines 115–118: apply each resolved flow to the derivative vector:
`dvar[from_key] -= val; dvar[to_key] += val`. -/
def apply_flows (dvar : Dict ℚ) : List Flow → Option (Dict ℚ)
  | [] => some dvar
  | (from_key, to_key, val) :: rest => do
    let d1 ← Dict.modify? dvar from_key (· - val)
    let d2 ← Dict.modify? d1 to_key (· + val)
    apply_flows d2 rest

/-- `BaseModel.add_to_dvars_from_flows` (lines 102–118). -/
def add_to_dvars_from_flows (dvar aux_var param : Dict ℚ)
    (aux_var_flows param_flows : List FlowDecl) : Option (Dict ℚ) := do
  let flows1 ← resolve_aux_var_flows aux_var_flows aux_var
  let flows2 ← resolve_param_flows param_flows param
  apply_flows dvar (flows1 ++ flows2)

/-- Total rate flowing into state `k` over a list of resolved flows. -/
def inflow : List Flow → String → ℚ
  | [], _ => 0
  | (_, to_key, val) :: rest, k => (if to_key = k then val else 0) + inflow rest k

/-- Total rate flowing out of state `k` over a list of resolved flows. -/
def outflow : List Flow → String → ℚ
  | [], _ => 0
  | (from_key, _, val) :: rest, k =>
    (if from_key = k then val else 0) + outflow rest k

/-- Sum of all values in a derivative vector. -/
def totalOf (d : Dict ℚ) : ℚ := (d.map Prod.snd).sum

/-! ## `make_cutoff_fn` (basemodel.py lines 272–283)

```python
def make_cutoff_fn(fn, x_max):
    y_max = fn(x_max)
    def new_fn(x):
        if x > x_max:
            return y_max
        y = fn(x)
        if y > y_max:
            return y_max
        return y
    return new_fn
```
-/

def make_cutoff_fn (fn : ℚ → ℚ) (x_max : ℚ) : ℚ → ℚ :=
  let y_max := fn x_max
  fun x =>
    if x > x_max then y_max
    else
      let y := fn x
      if y > y_max then y_max else y

/-! ## Editable parameters (`BaseModel.extract_editable_params`, lines 236–248,
and `is_key_in_list`, lines 286–291)

```python
def extract_editable_params(self):
    for k in self.param:
        if k == "dt":
            continue
        if not is_key_in_list(self.editable_params, key=k):
            val = self.param[k]
            if val > 0:
                val = 5 * val
            elif val == 0:
                val = 1
            else:
                raise Exception("Can't handle negative param")
            self.editable_params.append({"key": k, "max": val})
```
-/

/-- An editable-parameter descriptor `{"key": …, "max": …}`. -/
structure EditableParam where
  key : String
  max : ℚ
  deriving DecidableEq, Repr

/-- `is_key_in_list(p_list, key=k)` (lines 286–291, specialised to the one
keyword with which the source calls it). -/
def is_key_in_list (p_list : List EditableParam) (key : String) : Bool :=
  p_list.any (fun p => p.key = key)

/-- `BaseModel.extract_editable_params` (lines 236–248): iterate over the
parameter entries in insertion order, skipping `"dt"` and keys already
declared editable; positive values get bound `5·val`, zero gets `1`, a
negative value raises. -/
def extract_editable_params : Dict ℚ → List EditableParam →
    Except String (List EditableParam)
  | [], acc => .ok acc
  | (k, v) :: rest, acc =>
    if k = "dt" then extract_editable_params rest acc
    else if is_key_in_list acc k then extract_editable_params rest acc
    else if v > 0 then extract_editable_params rest (acc ++ [⟨k, 5 * v⟩])
    else if v = 0 then extract_editable_params rest (acc ++ [⟨k, 1⟩])
    else .error "Can't handle negative param"

/-! ## `BaseModel.__init__` (lines 23–48), parameter store

```python
def __init__(self, param=None):
    self.param = AttrDict()
    if param is not None:
        for k, v in param.items():
            self.param[k] = v
    ...
    self.param.time = 100
    self.param.dt = 1
    ...
    self.setup()
```

The reserved defaults are assigned *after* the supplied mapping is copied in,
and `setup()` runs last. -/

/-- The parameter store built by `__init__` just before `setup()` runs. -/
def init_param (param : Option (Dict ℚ)) : Dict ℚ :=
  let p0 : Dict ℚ := match param with
    | some p => p.foldl (fun d kv => Dict.set d kv.1 kv.2) []
    | none => []
  let p1 := Dict.set p0 "time" 100
  Dict.set p1 "dt" 1

/-- `__init__` as far as the parameter store is concerned: copy, overwrite
reserved defaults, then run the subclass `setup` hook (`pass` in
`BaseModel`, i.e. the identity). -/
def base_model_init (param : Option (Dict ℚ)) (setup : Dict ℚ → Dict ℚ) :
    Dict ℚ :=
  setup (init_param param)

/-! ## Consistency checker (`BaseModel.check_consistency`, lines 192–234)

`check_consistency` first performs one throwaway evaluation
(`init_vars(); calc_aux_vars(); calc_dvars(0)`) and then validates the
declaration.  The embedding captures the model declaration as it stands
after that throwaway evaluation: the key sets of `var`, `dvar`, `aux_var`,
`param` and `fn`, and the declared plots, editable parameters and flows.
Each Python `raise Exception(f"...")` is embedded as a structured error that
carries the offending key; the checks run in source order and stop at the
first failure, exactly as the Python loops do. -/

/-- A plot specification: `p["title"]`, `p["vars"]` (empty when the plot has
no `"vars"` entry) and `p["fn"]` (when present). -/
structure Plot where
  title : String
  vars : List String
  fn : Option String

/-- The errors raised by `check_consistency`, one constructor per `raise`
site (lines 199, 203, 209–211, 214, 218, 222, 224, 226, 230, 232, 234),
each carrying the offending key interpolated into the message. -/
inductive ModelError where
  | varNoDvar (v : String)
  | dvarNoVar (v : String)
  | plotVarMissing (title v : String)
  | plotFnMissing (fn : String)
  | editableParamMissing (key : String)
  | flowFromMissing (f : String)
  | flowToMissing (t : String)
  | flowAuxMissing (v : String)
  | flowParamMissing (p : String)
  deriving DecidableEq, Repr

/-- The offending key named by an error (the value interpolated into the
exception message at each `raise` site). -/
def ModelError.key : ModelError → String
  | varNoDvar v => v
  | dvarNoVar v => v
  | plotVarMissing _ v => v
  | plotFnMissing fn => fn
  | editableParamMissing k => k
  | flowFromMissing f => f
  | flowToMissing t => t
  | flowAuxMissing v => v
  | flowParamMissing p => p

/-- The Python exception message at each `raise` site (an f-string that
interpolates the offending key). -/
def ModelError.message : ModelError → String
  | varNoDvar v => "var " ++ v ++ " has no matching dvar in self.calc_dvar"
  | dvarNoVar v => "dvar " ++ v ++ " has no matching var for self.init_var"
  | plotVarMissing title v =>
    "plot " ++ title ++ " has var " ++ v ++ " not in self.vars nor in self.aux_vars"
  | plotFnMissing fn => "plot " ++ fn ++ " has fn " ++ fn ++ " not in self.fn"
  | editableParamMissing k => "editable param " ++ k ++ " not in self.param"
  | flowFromMissing f => "flow from_key " ++ f ++ " not in self.var"
  | flowToMissing t => "flow to_key " ++ t ++ " not in self.var"
  | flowAuxMissing v => "flow aux_var " ++ v ++ " not in self.aux_var"
  | flowParamMissing p => "flow param " ++ p ++ " not in self.param"

/-- The model declaration as it stands after the throwaway evaluation at the
top of `check_consistency`. -/
structure ModelDecl where
  varKeys : List String
  dvarKeys : List String
  auxVarKeys : List String
  paramKeys : List String
  fnKeys : List String
  plots : List Plot
  editableParams : List EditableParam
  auxVarFlows : List FlowDecl
  paramFlows : List FlowDecl

/-- First error produced while traversing a list, mirroring a Python `for`
loop whose body may `raise`. -/
def firstErr {β : Type} (l : List β) (f : β → Option ModelError) :
    Option ModelError :=
  match l with
  | [] => none
  | x :: rest =>
    match f x with
    | some e => some e
    | none => firstErr rest f

/-- The per-plot check (lines 205–214): the `"vars"` loop first, then the
`"fn"` lookup. -/
def checkPlot (m : ModelDecl) (p : Plot) : Option ModelError :=
  match firstErr p.vars (fun v =>
      if v ∈ m.varKeys ∨ v ∈ m.auxVarKeys then none
      else some (.plotVarMissing p.title v)) with
  | some e => some e
  | none =>
    match p.fn with
    | some fn => if fn ∈ m.fnKeys then none else some (.plotFnMissing fn)
    | none => none

/-- The per-flow check for aux-var flows (lines 220–226). -/
def checkAuxFlow (m : ModelDecl) (fl : FlowDecl) : Option ModelError :=
  if fl.1 ∉ m.varKeys then some (.flowFromMissing fl.1)
  else if fl.2.1 ∉ m.varKeys then some (.flowToMissing fl.2.1)
  else if fl.2.2 ∉ m.auxVarKeys then some (.flowAuxMissing fl.2.2)
  else none

/-- The per-flow check for param flows (lines 228–234). -/
def checkParamFlow (m : ModelDecl) (fl : FlowDecl) : Option ModelError :=
  if fl.1 ∉ m.varKeys then some (.flowFromMissing fl.1)
  else if fl.2.1 ∉ m.varKeys then some (.flowToMissing fl.2.1)
  else if fl.2.2 ∉ m.paramKeys then some (.flowParamMissing fl.2.2)
  else none

/-- `BaseModel.check_consistency` (lines 192–234), check groups in source
order; the first failing check raises. -/
def check_consistency (m : ModelDecl) : Except ModelError Unit :=
  match firstErr m.varKeys (fun v =>
      if v ∈ m.dvarKeys then none else some (.varNoDvar v)) with
  | some e => .error e
  | none =>
  match firstErr m.dvarKeys (fun v =>
      if v ∈ m.varKeys then none else some (.dvarNoVar v)) with
  | some e => .error e
  | none =>
  match firstErr m.plots (checkPlot m) with
  | some e => .error e
  | none =>
  match firstErr m.editableParams (fun p =>
      if p.key ∈ m.paramKeys then none else some (.editableParamMissing p.key)) with
  | some e => .error e
  | none =>
  match firstErr m.auxVarFlows (checkAuxFlow m) with
  | some e => .error e
  | none =>
  match firstErr m.paramFlows (checkParamFlow m) with
  | some e => .error e
  | none => .ok ()

/-- A malformed declaration in the sense of the spec's taxonomy: some key is
offending in one of the six checked ways. -/
def Offending (m : ModelDecl) (e : ModelError) : Prop :=
  match e with
  | .varNoDvar v => v ∈ m.varKeys ∧ v ∉ m.dvarKeys
  | .dvarNoVar v => v ∈ m.dvarKeys ∧ v ∉ m.varKeys
  | .plotVarMissing title v => ∃ p ∈ m.plots,
      p.title = title ∧ v ∈ p.vars ∧ v ∉ m.varKeys ∧ v ∉ m.auxVarKeys
  | .plotFnMissing fn => (∃ p ∈ m.plots, p.fn = some fn) ∧ fn ∉ m.fnKeys
  | .editableParamMissing k =>
      (∃ p ∈ m.editableParams, p.key = k) ∧ k ∉ m.paramKeys
  | .flowFromMissing f =>
      (∃ fl ∈ m.auxVarFlows ++ m.paramFlows, fl.1 = f) ∧ f ∉ m.varKeys
  | .flowToMissing t =>
      (∃ fl ∈ m.auxVarFlows ++ m.paramFlows, fl.2.1 = t) ∧ t ∉ m.varKeys
  | .flowAuxMissing v =>
      (∃ fl ∈ m.auxVarFlows, fl.2.2 = v) ∧ v ∉ m.auxVarKeys
  | .flowParamMissing p =>
      (∃ fl ∈ m.paramFlows, fl.2.2 = p) ∧ p ∉ m.paramKeys

/-! ## Run pipeline (`BaseModel.run` and `scipy_integrate`, lines 85–134)

```python
def run(self):
    self.check_consistency()
    self.reset_solutions()
    self.init_vars()
    self.times = list(float_range(0, self.param.time, self.param.dt))
    self.keys = list(self.var.keys())
    self.scipy_integrate()
```

`run` calls `scipy_integrate` unconditionally: the `integrate_method`
attribute set by some models (`fathers.py` line 10) is never read anywhere,
and `crude_integrate` is only reachable through the separate `chunky_run`
entry point (lines 120–126), which nothing in the repository calls.

`scipy.integrate.odeint` is an external library function, so the embedding
takes the solver as a parameter `odeint`; its documented contract (one
output row per requested time point, one column per state entry) enters the
theorems as a hypothesis. -/

/-- The dynamic parts of a model that `run` needs, after `setup`. -/
structure Model where
  /-- `self.integrate_method`: a string flag set by some models
  (e.g. `"euler_integrate"` in `fathers.py` line 10) and read by nothing. -/
  integrateMethod : String
  /-- `self.param.time`. -/
  time : ℚ
  /-- `self.param.dt`. -/
  dt : ℚ
  /-- `self.var` after `init_vars()`. -/
  initVar : Dict Fl
  /-- `self.calc_aux_vars` as a function of the state store. -/
  calcAux : Dict Fl → Dict Fl
  /-- `self.calc_dvars(t)` as a function of `t`, the state store and the
  auxiliary store. -/
  calcDvars : ℚ → Dict Fl → Dict Fl → Dict Fl
  /-- The model declaration snapshot used by `check_consistency`. -/
  decl : ModelDecl

/-- `for v, key in zip(var_array, self.keys): self.var[key] = v`
(lines 87–88; generic in the value type, Python being untyped). -/
def fromVec {V : Type} (keys : List String) (var : Dict V) (y : List V) :
    Dict V :=
  (keys.zip y).foldl (fun d kv => Dict.set d kv.1 kv.2) var

/-- `calc_dvar_array` (lines 86–91): load the solver's flat vector into the
state store, recompute auxiliary variables, compute derivatives, and return
them as a flat vector in key order. -/
def calc_dvar_array (m : Model) (keys : List String) (var : Dict Fl)
    (y : List Fl) (t : ℚ) : List Fl :=
  let var' := fromVec keys var y
  let aux := m.calcAux var'
  let dvar := m.calcDvars t var' aux
  keys.map (fun k => (Dict.get? dvar k).getD default)

/-- The auxiliary vector as computed live inside the solver callback
(lines 87–89): state loaded from the solver's vector, then
`calc_aux_vars()`. -/
def live_aux (m : Model) (keys : List String) (var : Dict Fl) (y : List Fl) :
    Dict Fl :=
  m.calcAux (fromVec keys var y)

/-- The type of the external `scipy.integrate.odeint`: derivative callback,
initial vector, requested output times, result rows. -/
abbrev Odeint := (List Fl → ℚ → List Fl) → List Fl → List ℚ → List (List Fl)

/-- `BaseModel.scipy_integrate` (lines 85–100): call the external solver and
store column `i` of the output as the trajectory of key `i`. -/
def scipy_integrate (odeint : Odeint) (m : Model) (keys : List String)
    (var : Dict Fl) (times : List ℚ) (solution : Dict (List Fl)) :
    Dict (List Fl) :=
  let y_init := keys.map (fun k => (Dict.get? var k).getD default)
  let output := odeint (fun y t => calc_dvar_array m keys var y t) y_init times
  (keys.enum).foldl
    (fun sol ik => Dict.set sol ik.2 (output.map (fun row => row.getD ik.1 default)))
    solution

/-- The result of a successful `run()`: `self.times` and `self.solution`. -/
structure RunResult where
  times : List ℚ
  keys : List String
  solution : Dict (List Fl)

/-- `BaseModel.run` (lines 128–134). -/
def run (odeint : Odeint) (m : Model) : Except ModelError RunResult :=
  match check_consistency m.decl with
  | .error e => .error e
  | .ok () =>
    let times := float_range 0 m.time m.dt
    let keys := Dict.keys m.initVar
    let solution := scipy_integrate odeint m keys m.initVar times []
    .ok ⟨times, keys, solution⟩

/-- The two stepping strategies of the spec. -/
inductive IntegratorKind where
  | fixedStepEuler
  | adaptive
  deriving DecidableEq, Repr

/-- The strategy a call of `run()` (lines 128–134) actually invokes: its body
ends in `self.scipy_integrate()` with no branch on any flag. -/
def run_integrator (_m : Model) : IntegratorKind := .adaptive

/-- The strategy `chunky_run()` (lines 120–126) invokes: `crude_integrate`. -/
def chunky_run_integrator (_m : Model) : IntegratorKind := .fixedStepEuler

/-- The `integrate_method` flag fragment of `TurchinFathersAndSonsModel.setup`
(`fathers.py` lines 10–12): `integrate_method = "euler_integrate"`,
`param.time = 100`, `param.dt = 0.5`; the rest of the model is irrelevant to
which strategy `run()` picks. -/
def fathersFragment : Model where
  integrateMethod := "euler_integrate"
  time := 100
  dt := 1 / 2
  initVar := []
  calcAux := fun _ => []
  calcDvars := fun _ _ _ => []
  decl := ⟨[], [], [], [], [], [], [], [], []⟩

/-! ## Fixed-step path (`BaseModel.update` lines 68–72 and
`BaseModel.crude_integrate` lines 74–83)

```python
def update(self, t):
    self.calc_dvars(t)
    for key in self.dvar.keys():
        self.var[key] += self.dvar[key] * self.param.dt
    self.calc_vars()

def crude_integrate(self):
    for time in self.times:
        self.update(time)
        for key in self.keys:
            if not key in self.solution:
                self.solution[key] = []
            if math.isfinite(self.var[key]):
                self.solution[key].append(self.var[key])
            else:
                self.solution[key].append(None)
```

There is no `break`: every grid point appends one entry per key, a numeric
entry when that key's value is finite and Python `None` otherwise.
Trajectory entries are therefore embedded as `Option Fl`, with `none` for
the `None` sentinel. -/

/-- `if not key in self.solution: self.solution[key] = []` followed by
`self.solution[key].append(value)`. -/
def appendSol {V : Type} (s : Dict (List V)) (k : String) (v : V) :
    Dict (List V) :=
  if Dict.hasKey s k then (Dict.modify? s k (fun l => l ++ [v])).getD s
  else Dict.set s k [v]

/-- `BaseModel.update` (lines 68–72): compute derivatives, advance each state
entry by `dvar[key] * dt` (a missing `var` key would be a Python `KeyError`;
the models used in the theorems keep `dvar` keys inside `var` keys), then the
`calc_vars` hook (`pass` in `BaseModel`). -/
def euler_update (calcDvars : ℚ → Dict Fl → Dict Fl)
    (calcVars : Dict Fl → Dict Fl) (dt : ℚ) (t : ℚ) (var : Dict Fl) : Dict Fl :=
  let dvar := calcDvars t var
  let var' := (Dict.keys dvar).foldl
    (fun d k =>
      (Dict.modify? d k (fun x => x + (Dict.get? dvar k).getD default * Fl.num dt)).getD d)
    var
  calcVars var'

/-- `BaseModel.crude_integrate` (lines 74–83); `update` is the model's
`update` method. -/
def crude_integrate (update : ℚ → Dict Fl → Dict Fl) (keys : List String) :
    List ℚ → Dict Fl → Dict (List (Option Fl)) →
      Dict Fl × Dict (List (Option Fl))
  | [], var, sol => (var, sol)
  | t :: rest, var, sol =>
    let var' := update t var
    let sol' := keys.foldl
      (fun s k =>
        let v := (Dict.get? var' k).getD default
        appendSol s k (if v.isfinite then some v else none))
      sol
    crude_integrate update keys rest var' sol'

/-- The sequence of state stores after each `update` call of
`crude_integrate`. -/
def euler_states (update : ℚ → Dict Fl → Dict Fl) :
    List ℚ → Dict Fl → List (Dict Fl)
  | [], _ => []
  | t :: rest, var =>
    let var' := update t var
    var' :: euler_states update rest var'

/-! ## Auxiliary-solution reconstructor
(`BaseModel.calc_aux_var_solutions`, lines 136–145)

```python
def calc_aux_var_solutions(self):
    for i_time, time in enumerate(self.times):
        for key in self.keys:
            if key in self.solution:
                self.var[key] = self.solution[key][i_time]
        self.calc_aux_vars()
        for key, value in self.aux_var.items():
            if key not in self.solution:
                self.solution[key] = []
            self.solution[key].append(value)
```

Generic in the trajectory value type `V` (`Fl` for the `scipy` path, whose
trajectories are floats, `Option Fl` for the fixed-step path, whose
trajectories may contain the `None` sentinel). -/

/-- The inner load loop: `self.var[key] = self.solution[key][i_time]` for
each key present in the solution store. -/
def load_step_vars {V : Type} [Inhabited V] (keys : List String)
    (sol : Dict (List V)) (i : ℕ) (var : Dict V) : Dict V :=
  keys.foldl
    (fun d k =>
      if Dict.hasKey sol k then
        Dict.set d k (((Dict.get? sol k).getD []).getD i default)
      else d)
    var

/-- The loop of `calc_aux_var_solutions` (lines 137–145), carrying the
mutated state store and solution store: one iteration per time index; the
state store persists across iterations, the recomputed auxiliary store is
appended into the solution store. -/
def recon_loop {V : Type} [Inhabited V] (calcAux : Dict V → Dict V)
    (keys : List String) (nTimes : ℕ) (var : Dict V) (sol : Dict (List V)) :
    Dict V × Dict (List V) :=
  (List.range nTimes).foldl
    (fun p i =>
      let var' := load_step_vars keys p.2 i p.1
      let aux := calcAux var'
      (var', aux.foldl (fun s kv => appendSol s kv.1 kv.2) p.2))
    (var, sol)

/-- `BaseModel.calc_aux_var_solutions` (lines 136–145): the updated solution
store after the loop. -/
def calc_aux_var_solutions {V : Type} [Inhabited V]
    (calcAux : Dict V → Dict V) (keys : List String) (nTimes : ℕ)
    (var : Dict V) (sol : Dict (List V)) : Dict (List V) :=
  (recon_loop calcAux keys nTimes var sol).2

/-- The state store loaded by the reconstructor just before computing
auxiliary variables for time index `n` (the load of index `n-1` composed
with all earlier loads). -/
def recon_vars {V : Type} [Inhabited V] (keys : List String)
    (sol : Dict (List V)) (var : Dict V) : ℕ → Dict V
  | 0 => var
  | n + 1 => load_step_vars keys sol n (recon_vars keys sol var n)

/-- The flat state vector recorded in the solution store at time index `i`,
in key order. -/
def recorded_state_vec {V : Type} [Inhabited V] (keys : List String)
    (sol : Dict (List V)) (i : ℕ) : List V :=
  keys.map (fun k => ((Dict.get? sol k).getD []).getD i default)

/-- A degenerate stand-in instance of the external adaptive solver, with the
documented output shape (one row per requested output time). -/
def odeintStub : Odeint := fun _f y0 ts => ts.map (fun _ => y0)

/-- A minimal malformed model: one state variable `"x"` with no matching
derivative entry. -/
def malformedVarModel : Model where
  integrateMethod := ""
  time := 10
  dt := 1
  initVar := [("x", Fl.num 1)]
  calcAux := fun _ => []
  calcDvars := fun _ _ _ => []
  decl := ⟨["x"], [], [], [], [], [], [], [], []⟩

/-- A minimal well-formed model: one state variable `"x"` with derivative 0,
one (constant) auxiliary variable `"a"`, `time = 1`, `dt = 1`. -/
def simpleModel : Model where
  integrateMethod := ""
  time := 1
  dt := 1
  initVar := [("x", Fl.num 1)]
  calcAux := fun _ => [("a", Fl.num 0)]
  calcDvars := fun _ _ _ => [("x", Fl.num 0)]
  decl := ⟨["x"], ["x"], ["a"], ["time", "dt"], [], [], [], [], []⟩

/-- `simpleModel` with duration 10 and step 3 — a step that does not divide
the duration. -/
def coarseModel : Model := { simpleModel with time := 10, dt := 3 }

/-- Decidable equality for `Except`, for concrete evaluation of checker
results. -/
instance {ε α : Type} [DecidableEq ε] [DecidableEq α] :
    DecidableEq (Except ε α) := fun a b =>
  match a, b with
  | .ok x, .ok y => if h : x = y then .isTrue (by rw [h]) else .isFalse (by simp [h])
  | .error e, .error f =>
    if h : e = f then .isTrue (by rw [h]) else .isFalse (by simp [h])
  | .ok _, .error _ => .isFalse (by simp)
  | .error _, .ok _ => .isFalse (by simp)

/-! # PART 2 — Theorems -/

namespace Dict

@[simp] theorem get_nil (k : String) : Dict.get? ([] : Dict α) k = none := rfl

@[simp] theorem keys_nil : Dict.keys ([] : Dict α) = [] := rfl

@[simp] theorem keys_cons (k : String) (v : α) (d : Dict α) :
    Dict.keys ((k, v) :: d) = k :: Dict.keys d := rfl

@[simp] theorem get_cons (k k' : String) (v : α) (d : Dict α) :
    Dict.get? ((k', v) :: d) k = if k' = k then some v else Dict.get? d k := rfl

theorem hasKey_iff_mem_keys (d : Dict α) (k : String) :
    Dict.hasKey d k = true ↔ k ∈ Dict.keys d := by
  induction d with
  | nil => simp [hasKey]
  | cons p rest ih =>
    obtain ⟨k', v⟩ := p
    by_cases h : k' = k
    · simp [hasKey, h]
    · simp [hasKey, h, Ne.symm h, ih]

theorem get?_isSome_of_mem_keys {d : Dict α} {k : String} (h : k ∈ Dict.keys d) :
    (Dict.get? d k).isSome := by
  induction d with
  | nil => simp at h
  | cons p rest ih =>
    obtain ⟨k', v⟩ := p
    by_cases hk : k' = k
    · simp [hk]
    · simp only [keys_cons, List.mem_cons] at h
      rcases h with h | h
      · exact absurd h.symm hk
      · simpa [hk] using ih h

theorem modify?_isSome_of_mem_keys {d : Dict α} {k : String} (f : α → α)
    (h : k ∈ Dict.keys d) : (Dict.modify? d k f).isSome := by
  induction d with
  | nil => simp at h
  | cons p rest ih =>
    obtain ⟨k', v⟩ := p
    by_cases hk : k' = k
    · simp [modify?, hk]
    · simp only [keys_cons, List.mem_cons] at h
      rcases h with h | h
      · exact absurd h.symm hk
      · have := ih h
        simpa [modify?, hk, Option.isSome_map] using this

theorem get?_modify?_self {d d' : Dict α} {k : String} {f : α → α}
    (h : Dict.modify? d k f = some d') :
    Dict.get? d' k = (Dict.get? d k).map f := by
  induction d generalizing d' with
  | nil => simp [modify?] at h
  | cons p rest ih =>
    obtain ⟨k', v⟩ := p
    by_cases hk : k' = k
    · simp only [modify?, if_pos hk, Option.some_inj] at h
      subst h
      simp [hk]
    · simp only [modify?, if_neg hk, Option.map_eq_some'] at h
      obtain ⟨d'', hd'', rfl⟩ := h
      simp [hk, ih hd'']

theorem get?_modify?_other {d d' : Dict α} {k k₂ : String} {f : α → α}
    (h : Dict.modify? d k f = some d') (hne : k₂ ≠ k) :
    Dict.get? d' k₂ = Dict.get? d k₂ := by
  induction d generalizing d' with
  | nil => simp [modify?] at h
  | cons p rest ih =>
    obtain ⟨k', v⟩ := p
    by_cases hk : k' = k
    · simp only [modify?, if_pos hk, Option.some_inj] at h
      subst h
      subst hk
      simp [Ne.symm hne]
    · simp only [modify?, if_neg hk, Option.map_eq_some'] at h
      obtain ⟨d'', hd'', rfl⟩ := h
      by_cases hk2 : k' = k₂ <;> simp [hk2, ih hd'']

theorem keys_modify? {d d' : Dict α} {k : String} {f : α → α}
    (h : Dict.modify? d k f = some d') : Dict.keys d' = Dict.keys d := by
  induction d generalizing d' with
  | nil => simp [modify?] at h
  | cons p rest ih =>
    obtain ⟨k', v⟩ := p
    by_cases hk : k' = k
    · simp only [modify?, if_pos hk, Option.some_inj] at h
      subst h
      simp
    · simp only [modify?, if_neg hk, Option.map_eq_some'] at h
      obtain ⟨d'', hd'', rfl⟩ := h
      simp [ih hd'']

theorem get?_set_self (d : Dict α) (k : String) (v : α) :
    Dict.get? (Dict.set d k v) k = some v := by
  induction d with
  | nil => simp [set]
  | cons p rest ih =>
    obtain ⟨k', v'⟩ := p
    by_cases hk : k' = k <;> simp [set, hk, ih]

theorem get?_set_other (d : Dict α) (k k₂ : String) (v : α) (hne : k₂ ≠ k) :
    Dict.get? (Dict.set d k v) k₂ = Dict.get? d k₂ := by
  induction d with
  | nil => simp [set, Ne.symm hne]
  | cons p rest ih =>
    obtain ⟨k', v'⟩ := p
    by_cases hk : k' = k
    · subst hk
      simp [set, Ne.symm hne]
    · by_cases hk2 : k' = k₂
      · subst hk2
        simp [set, hk]
      · simp [set, hk, hk2, ih]

end Dict

namespace Fl

@[simp] theorem add_num (a b : ℚ) : (num a) + (num b) = num (a + b) := rfl
@[simp] theorem mul_num (a b : ℚ) : (num a) * (num b) = num (a * b) := rfl
@[simp] theorem isfinite_num (a : ℚ) : (num a).isfinite = true := rfl
@[simp] theorem isfinite_nan : (nan).isfinite = false := rfl

end Fl

theorem float_range_of_nonpos {start stop step : ℚ} (h : ¬ 0 < step) :
    float_range start stop step = [] := by
  rw [float_range]
  simp [h]

theorem float_range_of_ge {start stop step : ℚ} (h : ¬ start < stop) :
    float_range start stop step = [] := by
  rw [float_range]
  simp [h]

theorem float_range_of_lt {start stop step : ℚ} (hstep : 0 < step)
    (h : start < stop) :
    float_range start stop step = start :: float_range (start + step) stop step := by
  rw [float_range]
  simp [hstep, h]

/-- The generated grid is `start, start + step, start + 2·step, …`, one point
for every `k` with `start + k·step < stop`. -/
theorem float_range_eq_map (stop step : ℚ) (hstep : 0 < step) :
    ∀ start : ℚ, float_range start stop step =
      (List.range (⌈(stop - start) / step⌉).toNat).map
        (fun k : ℕ => start + (k : ℚ) * step) := by
  intro start
  generalize hn : (⌈(stop - start) / step⌉).toNat = n
  induction n generalizing start with
  | zero =>
    have hle : (stop - start) / step ≤ 0 := by
      by_contra hpos
      push_neg at hpos
      have h1 : (1 : ℤ) ≤ ⌈(stop - start) / step⌉ := Int.ceil_pos.mpr hpos
      omega
    have : stop ≤ start := by
      have := (div_nonpos_iff.mp hle)
      rcases this with ⟨h1, h2⟩ | ⟨h1, h2⟩
      · linarith
      · linarith
    simp [float_range_of_ge (not_lt.mpr this)]
  | succ n ih =>
    have hceil : ⌈(stop - start) / step⌉ = (n : ℤ) + 1 := by omega
    have hpos : 0 < (stop - start) / step := by
      by_contra hle
      push_neg at hle
      have : ⌈(stop - start) / step⌉ ≤ 0 :=
        Int.ceil_le.mpr (by exact_mod_cast hle)
      omega
    have hlt : start < stop := by
      rcases div_pos_iff.mp hpos with ⟨h1, _⟩ | ⟨_, h2⟩
      · linarith
      · linarith
    have hnext : (⌈(stop - (start + step)) / step⌉).toNat = n := by
      have heq : (stop - (start + step)) / step = (stop - start) / step - 1 := by
        field_simp
        ring
      rw [heq, Int.ceil_sub_one, hceil]
      omega
    rw [float_range_of_lt hstep hlt, ih (start + step) hnext,
      List.range_succ_eq_map, List.map_cons, List.map_map]
    refine congrArg₂ List.cons (by push_cast; ring) ?_
    refine List.map_congr_left ?_
    intro a _
    simp only [Function.comp_apply]
    push_cast
    ring

theorem opt_map_congr {α β : Type} {f g : α → β} (o : Option α)
    (h : ∀ a, f a = g a) : o.map f = o.map g := by
  cases o <;> simp [h]

theorem totalOf_modify?_add {d d' : Dict ℚ} {k : String} {v : ℚ}
    (h : Dict.modify? d k (· + v) = some d') : totalOf d' = totalOf d + v := by
  induction d generalizing d' with
  | nil => simp [Dict.modify?] at h
  | cons p rest ih =>
    obtain ⟨k', x⟩ := p
    by_cases hk : k' = k
    · simp only [Dict.modify?, if_pos hk, Option.some_inj] at h
      subst h
      simp [totalOf]
      ring
    · simp only [Dict.modify?, if_neg hk, Option.map_eq_some'] at h
      obtain ⟨d'', hd'', rfl⟩ := h
      simp [totalOf] at ih ⊢
      rw [ih hd'']
      ring

theorem totalOf_modify?_sub {d d' : Dict ℚ} {k : String} {v : ℚ}
    (h : Dict.modify? d k (· - v) = some d') : totalOf d' = totalOf d - v := by
  induction d generalizing d' with
  | nil => simp [Dict.modify?] at h
  | cons p rest ih =>
    obtain ⟨k', x⟩ := p
    by_cases hk : k' = k
    · simp only [Dict.modify?, if_pos hk, Option.some_inj] at h
      subst h
      simp [totalOf]
      ring
    · simp only [Dict.modify?, if_neg hk, Option.map_eq_some'] at h
      obtain ⟨d'', hd'', rfl⟩ := h
      simp [totalOf] at ih ⊢
      rw [ih hd'']
      ring

/-- Characterization of `apply_flows`: when the update succeeds, each entry
of the derivative vector accumulates `+ inflow − outflow`, the shared
resolved rate applied with opposite sign at the two endpoints of each flow. -/
theorem apply_flows_get (flows : List Flow) :
    ∀ {dvar d' : Dict ℚ}, apply_flows dvar flows = some d' →
    ∀ k, Dict.get? d' k =
      (Dict.get? dvar k).map (fun x => x + inflow flows k - outflow flows k) := by
  induction flows with
  | nil =>
    intro dvar d' h k
    obtain rfl : dvar = d' := by simpa [apply_flows] using h
    simp only [inflow, outflow, sub_zero, add_zero]
    cases Dict.get? dvar k <;> rfl
  | cons fl rest ih =>
    intro dvar d' h k
    obtain ⟨from_key, to_key, val⟩ := fl
    simp only [apply_flows, Option.bind_eq_bind, bind, Option.bind_eq_some] at h
    obtain ⟨d1, hd1, d2, hd2, happ⟩ := h
    rw [ih happ k]
    have hd2get : ∀ k₂ : String, Dict.get? d2 k₂ =
        (Dict.get? dvar k₂).map
          (fun x => x + (if to_key = k₂ then val else 0)
            - (if from_key = k₂ then val else 0)) := by
      intro k₂
      by_cases hfk : from_key = k₂
      · subst hfk
        by_cases htk : to_key = from_key
        · subst htk
          rw [Dict.get?_modify?_self hd2, Dict.get?_modify?_self hd1,
            Option.map_map]
          refine opt_map_congr _ (fun a => ?_)
          rw [Function.comp_apply, if_pos rfl]
          ring
        · rw [Dict.get?_modify?_other hd2 (fun h => htk h.symm),
            Dict.get?_modify?_self hd1]
          refine opt_map_congr _ (fun a => ?_)
          rw [if_neg htk, if_pos rfl]
          ring
      · by_cases htk : to_key = k₂
        · subst htk
          rw [Dict.get?_modify?_self hd2,
            Dict.get?_modify?_other hd1 (fun h => hfk h.symm)]
          refine opt_map_congr _ (fun a => ?_)
          rw [if_pos rfl, if_neg hfk]
          ring
        · rw [Dict.get?_modify?_other hd2 (fun h => htk h.symm),
            Dict.get?_modify?_other hd1 (fun h => hfk h.symm)]
          cases Dict.get? dvar k₂ <;> simp [hfk, htk]
    rw [hd2get k, Option.map_map]
    refine opt_map_congr _ (fun a => ?_)
    simp only [Function.comp_apply, inflow, outflow]
    ring

/-- `apply_flows` preserves the total of the derivative vector: each flow
subtracts and adds the same shared value. -/
theorem apply_flows_total (flows : List Flow) :
    ∀ {dvar d' : Dict ℚ}, apply_flows dvar flows = some d' →
      totalOf d' = totalOf dvar := by
  induction flows with
  | nil =>
    intro dvar d' h
    obtain rfl : dvar = d' := by simpa [apply_flows] using h
    rfl
  | cons fl rest ih =>
    intro dvar d' h
    obtain ⟨from_key, to_key, val⟩ := fl
    simp only [apply_flows, Option.bind_eq_bind, bind, Option.bind_eq_some] at h
    obtain ⟨d1, hd1, d2, hd2, happ⟩ := h
    rw [ih happ, totalOf_modify?_add hd2, totalOf_modify?_sub hd1]
    ring


/-- **C10.** For every inner function `f`, cutoff point `x_max` and input
`x`, the clamped function returned by `make_cutoff_fn f x_max` never returns
a value greater than `f x_max`: it returns `f x_max` when `x > x_max` or when
`f x > f x_max`, and `f x` otherwise. -/
theorem make_cutoff_fn_clamped (fn : ℚ → ℚ) (x_max x : ℚ) :
    make_cutoff_fn fn x_max x ≤ fn x_max ∧
    make_cutoff_fn fn x_max x =
      (if x > x_max ∨ fn x > fn x_max then fn x_max else fn x) := by
  constructor
  · simp only [make_cutoff_fn]
    split_ifs <;> linarith
  · simp only [make_cutoff_fn]
    split_ifs <;> first | rfl | tauto

/-- **C9.** For every parameter mapping passed to the `BaseModel`
constructor, the parameter store handed to `setup()` has the reserved
entries overwritten with the defaults `time = 100` and `dt = 1` (the
defaults are assigned after the supplied mapping is copied in), so any
supplied `time`/`dt` value has no effect; only `setup` runs afterwards and
can change them. -/
theorem init_param_defaults (param : Option (Dict ℚ))
    (setup : Dict ℚ → Dict ℚ) :
    Dict.get? (init_param param) "time" = some 100 ∧
    Dict.get? (init_param param) "dt" = some 1 ∧
    base_model_init param setup = setup (init_param param) := by
  refine ⟨?_, ?_, rfl⟩
  · show Dict.get? (Dict.set (Dict.set _ "time" 100) "dt" 1) "time" = some 100
    rw [Dict.get?_set_other _ _ _ _ (by decide), Dict.get?_set_self]
  · show Dict.get? (Dict.set (Dict.set _ "time" 100) "dt" 1) "dt" = some 1
    rw [Dict.get?_set_self]

/-- **C7.** `run()` does not execute the strategy selected by the model's
`integrate_method` string flag: its body invokes the adaptive solver
unconditionally and never reads the flag (the flag has no effect on `run`),
even for the fathers model, which sets `integrate_method =
"euler_integrate"` (fathers.py line 10) and thus, per the claim, should be
stepped with the fixed-step Euler stepper. -/
theorem run_ignores_integrate_method :
    fathersFragment.integrateMethod = "euler_integrate" ∧
    run_integrator fathersFragment = IntegratorKind.adaptive ∧
    run_integrator fathersFragment ≠ IntegratorKind.fixedStepEuler ∧
    (∀ (odeint : Odeint) (m : Model) (s : String),
      run odeint { m with integrateMethod := s } = run odeint m) :=
  ⟨rfl, rfl, by decide, fun _ _ _ => rfl⟩


theorem extract_keeps_acc (param : Dict ℚ) :
    ∀ (acc out : List EditableParam),
      extract_editable_params param acc = .ok out → ∀ e ∈ acc, e ∈ out := by
  induction param with
  | nil =>
    intro acc out hok e he
    simp only [extract_editable_params, Except.ok.injEq] at hok
    exact hok ▸ he
  | cons p rest ih =>
    intro acc out hok e he
    obtain ⟨k₀, v₀⟩ := p
    simp only [extract_editable_params] at hok
    split_ifs at hok with hdt0 hin hpos hzero
    · exact ih acc out hok e he
    · exact ih acc out hok e he
    · exact ih _ out hok e (List.mem_append_left _ he)
    · exact ih _ out hok e (List.mem_append_left _ he)

/-- **C8 (amended).** When deriving editable-parameter descriptors
automatically, for every parameter *other than the reserved step-size
parameter `"dt"`* that is not already declared editable, the suggested
display bound is `5 ×` the parameter's current value when that value is
positive and the fixed default `1` when the value is zero; a successful
extraction implies no such parameter was negative (a negative value raises
instead).  (`"dt"` itself is skipped outright, receiving no descriptor.) -/
theorem extract_editable_params_bounds (param : Dict ℚ) :
    ∀ (acc out : List EditableParam) (k : String) (v : ℚ),
    (Dict.keys param).Nodup →
    extract_editable_params param acc = .ok out →
    (k, v) ∈ param → k ≠ "dt" →
    is_key_in_list acc k = false →
    (0 < v → EditableParam.mk k (5 * v) ∈ out) ∧
    (v = 0 → EditableParam.mk k 1 ∈ out) ∧
    ¬ v < 0 := by
  induction param with
  | nil =>
    intro acc out k v _ _ hmem
    cases hmem
  | cons p rest ih =>
    intro acc out k v hnodup hok hmem hdt hned
    obtain ⟨k₀, v₀⟩ := p
    simp only [Dict.keys, List.map_cons, List.nodup_cons] at hnodup
    obtain ⟨hk₀notin, hnodup'⟩ := hnodup
    simp only [extract_editable_params] at hok
    rcases List.mem_cons.mp hmem with heq | hmemrest
    · obtain ⟨rfl, rfl⟩ : k₀ = k ∧ v₀ = v := by
        exact ⟨congrArg Prod.fst heq.symm, congrArg Prod.snd heq.symm⟩
      split_ifs at hok with hdt0 hin hpos hzero
      · exact absurd hdt0 hdt
      · exact absurd hin (by simp [hned])
      · refine ⟨fun _ => ?_, fun h0 => by linarith, by linarith⟩
        exact extract_keeps_acc rest _ out hok _ (by simp)
      · refine ⟨fun hp => by linarith, fun _ => ?_, by linarith⟩
        exact extract_keeps_acc rest _ out hok _ (by simp)
    · have hkmem : k ∈ List.map Prod.fst rest := by
        exact List.mem_map.mpr ⟨(k, v), hmemrest, rfl⟩
      have hkne : k₀ ≠ k := fun h => hk₀notin (h ▸ hkmem)
      split_ifs at hok with hdt0 hin hpos hzero
      · exact ih acc out k v hnodup' hok hmemrest hdt hned
      · exact ih acc out k v hnodup' hok hmemrest hdt hned
      · refine ih _ out k v hnodup' hok hmemrest hdt ?_
        simp [is_key_in_list] at hned ⊢
        exact ⟨hned, hkne⟩
      · refine ih _ out k v hnodup' hok hmemrest hdt ?_
        simp [is_key_in_list] at hned ⊢
        exact ⟨hned, hkne⟩

/-- **C8 (counterexample).** `"dt"` is a parameter with positive value `1`
that is not declared editable, yet `extract_editable_params` produces no
descriptor for it at all — contradicting the claim that *every* parameter
not already declared editable gets a suggested bound (which for `dt = 1`
would be `5`). -/
theorem extract_editable_params_skips_dt :
    extract_editable_params [("time", 100), ("dt", 1)] [] =
      .ok [EditableParam.mk "time" 500] ∧
    ("dt", (1 : ℚ)) ∈ ([("time", 100), ("dt", 1)] : Dict ℚ) ∧
    is_key_in_list [] "dt" = false ∧ (0 : ℚ) < 1 ∧
    (∀ e ∈ [EditableParam.mk "time" 500], e.key ≠ "dt") := by
  refine ⟨?_, by simp, rfl, by norm_num, by simp⟩
  simp [extract_editable_params, is_key_in_list]
  norm_num

/-- Witness for `extract_editable_params_bounds` at a concrete model:
parameters `time = 100`, `dt = 1`, `x = 0`, nothing declared editable. -/
theorem extract_editable_params_bounds_witness :
    ((0 : ℚ) < 100 → EditableParam.mk "time" (5 * 100) ∈
      [EditableParam.mk "time" 500, EditableParam.mk "x" 1]) ∧
    ((100 : ℚ) = 0 → EditableParam.mk "time" 1 ∈
      [EditableParam.mk "time" 500, EditableParam.mk "x" 1]) ∧
    ¬ (100 : ℚ) < 0 :=
  extract_editable_params_bounds
    [("time", 100), ("dt", 1), ("x", 0)] [] _ "time" 100
    (by decide) (by simp [extract_editable_params, is_key_in_list]; norm_num)
    (by simp) (by decide) rfl


/-- **C1.** For every flow evaluated by `add_to_dvars_from_flows`, a single
shared rate value — looked up from the auxiliary vector for aux-var flows and
from the parameter set for parameter flows (`h1`/`h2`) — is subtracted from
the source state's derivative entry and added to the destination state's
derivative entry: every derivative entry ends at its old value plus the total
inflow minus the total outflow over all resolved flows (so contributions from
several flows touching one state, including a state that is both source and
destination, accumulate additively), and the total of the derivative vector
is unchanged — each flow's two contributions sum to exactly zero. -/
theorem flow_conservation
    (dvar aux_var param : Dict ℚ)
    (aux_var_flows param_flows : List FlowDecl)
    (flows1 flows2 : List Flow) (d' : Dict ℚ)
    (h1 : resolve_aux_var_flows aux_var_flows aux_var = some flows1)
    (h2 : resolve_param_flows param_flows param = some flows2)
    (hres : add_to_dvars_from_flows dvar aux_var param
      aux_var_flows param_flows = some d') :
    (∀ k, Dict.get? d' k =
      (Dict.get? dvar k).map
        (fun x => x + inflow (flows1 ++ flows2) k
          - outflow (flows1 ++ flows2) k)) ∧
    totalOf d' = totalOf dvar := by
  unfold add_to_dvars_from_flows at hres
  rw [h1, h2] at hres
  simp only [Option.bind_eq_bind, Option.some_bind] at hres
  exact ⟨apply_flows_get _ hres, apply_flows_total _ hres⟩

/-- Witness for `flow_conservation` at a concrete two-flow chain
(susceptible→infectious at aux rate `inf = 2`, infectious→recovered at
param rate `rec = 3`), evaluated at the state `"I"` that is both a flow
destination and a flow source. -/
theorem flow_conservation_witness :
    Dict.get? [("S", (8 : ℚ)), ("I", 0), ("R", 3)] "I" =
      (Dict.get? [("S", (10 : ℚ)), ("I", 1), ("R", 0)] "I").map
        (fun x => x + inflow ([("S", "I", (2 : ℚ))] ++ [("I", "R", (3 : ℚ))]) "I"
          - outflow ([("S", "I", (2 : ℚ))] ++ [("I", "R", (3 : ℚ))]) "I") ∧
    totalOf [("S", (8 : ℚ)), ("I", 0), ("R", 3)] =
      totalOf [("S", (10 : ℚ)), ("I", 1), ("R", 0)] := by
  have h := flow_conservation
    [("S", 10), ("I", 1), ("R", 0)] [("inf", 2)] [("rec", 3)]
    [("S", "I", "inf")] [("I", "R", "rec")]
    [("S", "I", 2)] [("I", "R", 3)]
    [("S", 8), ("I", 0), ("R", 3)]
    (by simp [resolve_aux_var_flows, Dict.get?])
    (by simp [resolve_param_flows, Dict.get?])
    (by simp [add_to_dvars_from_flows, resolve_aux_var_flows,
        resolve_param_flows, apply_flows, Dict.modify?, Dict.get?]
        norm_num)
  exact ⟨h.1 "I", h.2⟩


theorem firstErr_eq_none_iff {β : Type} (l : List β) (f : β → Option ModelError) :
    firstErr l f = none ↔ ∀ x ∈ l, f x = none := by
  induction l with
  | nil => simp [firstErr]
  | cons x rest ih =>
    cases hf : f x <;> simp [firstErr, hf, ih]

theorem firstErr_eq_some {β : Type} {l : List β} {f : β → Option ModelError}
    {e : ModelError} (h : firstErr l f = some e) : ∃ x ∈ l, f x = some e := by
  induction l with
  | nil => simp [firstErr] at h
  | cons x rest ih =>
    cases hf : f x with
    | some e' =>
      simp only [firstErr, hf] at h
      exact ⟨x, by simp, hf.trans (by rw [h])⟩
    | none =>
      simp only [firstErr, hf] at h
      obtain ⟨y, hy, hfy⟩ := ih h
      exact ⟨y, by simp [hy], hfy⟩

theorem checkPlot_eq_none {m : ModelDecl} {p : Plot}
    (h : checkPlot m p = none) :
    (∀ v ∈ p.vars, v ∈ m.varKeys ∨ v ∈ m.auxVarKeys) ∧
    (∀ fn, p.fn = some fn → fn ∈ m.fnKeys) := by
  unfold checkPlot at h
  cases hc : firstErr p.vars (fun v =>
      if v ∈ m.varKeys ∨ v ∈ m.auxVarKeys then none
      else some (.plotVarMissing p.title v)) with
  | some e =>
    simp only [hc] at h
    exact Option.noConfusion h
  | none =>
    simp only [hc] at h
    refine ⟨fun v hv => ?_, fun fn hfn => ?_⟩
    · have := (firstErr_eq_none_iff _ _).mp hc v hv
      by_cases hin : v ∈ m.varKeys ∨ v ∈ m.auxVarKeys
      · exact hin
      · simp [hin] at this
    · rw [hfn] at h
      by_cases hf : fn ∈ m.fnKeys
      · exact hf
      · simp [hf] at h

theorem checkPlot_eq_some {m : ModelDecl} {p : Plot} {e : ModelError}
    (h : checkPlot m p = some e) :
    (∃ v ∈ p.vars, e = .plotVarMissing p.title v ∧
      v ∉ m.varKeys ∧ v ∉ m.auxVarKeys) ∨
    (∃ fn, p.fn = some fn ∧ e = .plotFnMissing fn ∧ fn ∉ m.fnKeys) := by
  unfold checkPlot at h
  cases hc : firstErr p.vars (fun v =>
      if v ∈ m.varKeys ∨ v ∈ m.auxVarKeys then none
      else some (.plotVarMissing p.title v)) with
  | some e' =>
    simp only [hc, Option.some_inj] at h
    obtain ⟨v, hv, hfv⟩ := firstErr_eq_some hc
    by_cases hin : v ∈ m.varKeys ∨ v ∈ m.auxVarKeys
    · simp [hin] at hfv
    · simp only [if_neg hin, Option.some_inj] at hfv
      push_neg at hin
      exact Or.inl ⟨v, hv, by rw [← h, ← hfv], hin.1, hin.2⟩
  | none =>
    simp only [hc] at h
    cases hfn : p.fn with
    | none => rw [hfn] at h; cases h
    | some fn =>
      rw [hfn] at h
      by_cases hf : fn ∈ m.fnKeys
      · simp [hf] at h
      · simp only [if_neg hf, Option.some_inj] at h
        exact Or.inr ⟨fn, rfl, h.symm, hf⟩

theorem checkAuxFlow_eq_none {m : ModelDecl} {fl : FlowDecl}
    (h : checkAuxFlow m fl = none) :
    fl.1 ∈ m.varKeys ∧ fl.2.1 ∈ m.varKeys ∧ fl.2.2 ∈ m.auxVarKeys := by
  unfold checkAuxFlow at h
  split_ifs at h with h1 h2 h3
  exact ⟨h1, h2, h3⟩

theorem checkAuxFlow_eq_some {m : ModelDecl} {fl : FlowDecl} {e : ModelError}
    (h : checkAuxFlow m fl = some e) :
    (e = .flowFromMissing fl.1 ∧ fl.1 ∉ m.varKeys) ∨
    (e = .flowToMissing fl.2.1 ∧ fl.2.1 ∉ m.varKeys) ∨
    (e = .flowAuxMissing fl.2.2 ∧ fl.2.2 ∉ m.auxVarKeys) := by
  unfold checkAuxFlow at h
  by_cases h1 : fl.1 ∉ m.varKeys
  · rw [if_pos h1] at h
    exact Or.inl ⟨(Option.some_inj.mp h).symm, h1⟩
  · rw [if_neg h1] at h
    by_cases h2 : fl.2.1 ∉ m.varKeys
    · rw [if_pos h2] at h
      exact Or.inr (Or.inl ⟨(Option.some_inj.mp h).symm, h2⟩)
    · rw [if_neg h2] at h
      by_cases h3 : fl.2.2 ∉ m.auxVarKeys
      · rw [if_pos h3] at h
        exact Or.inr (Or.inr ⟨(Option.some_inj.mp h).symm, h3⟩)
      · rw [if_neg h3] at h
        exact Option.noConfusion h

theorem checkParamFlow_eq_none {m : ModelDecl} {fl : FlowDecl}
    (h : checkParamFlow m fl = none) :
    fl.1 ∈ m.varKeys ∧ fl.2.1 ∈ m.varKeys ∧ fl.2.2 ∈ m.paramKeys := by
  unfold checkParamFlow at h
  split_ifs at h with h1 h2 h3
  exact ⟨h1, h2, h3⟩

theorem checkParamFlow_eq_some {m : ModelDecl} {fl : FlowDecl} {e : ModelError}
    (h : checkParamFlow m fl = some e) :
    (e = .flowFromMissing fl.1 ∧ fl.1 ∉ m.varKeys) ∨
    (e = .flowToMissing fl.2.1 ∧ fl.2.1 ∉ m.varKeys) ∨
    (e = .flowParamMissing fl.2.2 ∧ fl.2.2 ∉ m.paramKeys) := by
  unfold checkParamFlow at h
  by_cases h1 : fl.1 ∉ m.varKeys
  · rw [if_pos h1] at h
    exact Or.inl ⟨(Option.some_inj.mp h).symm, h1⟩
  · rw [if_neg h1] at h
    by_cases h2 : fl.2.1 ∉ m.varKeys
    · rw [if_pos h2] at h
      exact Or.inr (Or.inl ⟨(Option.some_inj.mp h).symm, h2⟩)
    · rw [if_neg h2] at h
      by_cases h3 : fl.2.2 ∉ m.paramKeys
      · rw [if_pos h3] at h
        exact Or.inr (Or.inr ⟨(Option.some_inj.mp h).symm, h3⟩)
      · rw [if_neg h3] at h
        exact Option.noConfusion h


theorem check_error_offending (m : ModelDecl) (e : ModelError)
    (h : check_consistency m = .error e) : Offending m e := by
  unfold check_consistency at h
  cases hc1 : firstErr m.varKeys (fun v =>
      if v ∈ m.dvarKeys then none else some (.varNoDvar v)) with
  | some e1 =>
    simp only [hc1] at h
    injection h with h'
    subst h'
    obtain ⟨v, hv, hfv⟩ := firstErr_eq_some hc1
    by_cases hin : v ∈ m.dvarKeys
    · simp [hin] at hfv
    · simp only [if_neg hin, Option.some_inj] at hfv
      rw [← hfv]
      exact ⟨hv, hin⟩
  | none =>
  simp only [hc1] at h
  cases hc2 : firstErr m.dvarKeys (fun v =>
      if v ∈ m.varKeys then none else some (.dvarNoVar v)) with
  | some e2 =>
    simp only [hc2] at h
    injection h with h'
    subst h'
    obtain ⟨v, hv, hfv⟩ := firstErr_eq_some hc2
    by_cases hin : v ∈ m.varKeys
    · simp [hin] at hfv
    · simp only [if_neg hin, Option.some_inj] at hfv
      rw [← hfv]
      exact ⟨hv, hin⟩
  | none =>
  simp only [hc2] at h
  cases hc3 : firstErr m.plots (checkPlot m) with
  | some e3 =>
    simp only [hc3] at h
    injection h with h'
    subst h'
    obtain ⟨p, hp, hfp⟩ := firstErr_eq_some hc3
    rcases checkPlot_eq_some hfp with ⟨v, hv, he, hnv, hna⟩ | ⟨fn, hfn, he, hnf⟩
    · rw [he]
      exact ⟨p, hp, rfl, hv, hnv, hna⟩
    · rw [he]
      exact ⟨⟨p, hp, hfn⟩, hnf⟩
  | none =>
  simp only [hc3] at h
  cases hc4 : firstErr m.editableParams (fun p =>
      if p.key ∈ m.paramKeys then none
      else some (.editableParamMissing p.key)) with
  | some e4 =>
    simp only [hc4] at h
    injection h with h'
    subst h'
    obtain ⟨p, hp, hfp⟩ := firstErr_eq_some hc4
    by_cases hin : p.key ∈ m.paramKeys
    · simp [hin] at hfp
    · simp only [if_neg hin, Option.some_inj] at hfp
      rw [← hfp]
      exact ⟨⟨p, hp, rfl⟩, hin⟩
  | none =>
  simp only [hc4] at h
  cases hc5 : firstErr m.auxVarFlows (checkAuxFlow m) with
  | some e5 =>
    simp only [hc5] at h
    injection h with h'
    subst h'
    obtain ⟨fl, hfl, hffl⟩ := firstErr_eq_some hc5
    rcases checkAuxFlow_eq_some hffl with ⟨he, hn⟩ | ⟨he, hn⟩ | ⟨he, hn⟩
    · rw [he]
      exact ⟨⟨fl, List.mem_append_left _ hfl, rfl⟩, hn⟩
    · rw [he]
      exact ⟨⟨fl, List.mem_append_left _ hfl, rfl⟩, hn⟩
    · rw [he]
      exact ⟨⟨fl, hfl, rfl⟩, hn⟩
  | none =>
  simp only [hc5] at h
  cases hc6 : firstErr m.paramFlows (checkParamFlow m) with
  | some e6 =>
    simp only [hc6] at h
    injection h with h'
    subst h'
    obtain ⟨fl, hfl, hffl⟩ := firstErr_eq_some hc6
    rcases checkParamFlow_eq_some hffl with ⟨he, hn⟩ | ⟨he, hn⟩ | ⟨he, hn⟩
    · rw [he]
      exact ⟨⟨fl, List.mem_append_right _ hfl, rfl⟩, hn⟩
    · rw [he]
      exact ⟨⟨fl, List.mem_append_right _ hfl, rfl⟩, hn⟩
    · rw [he]
      exact ⟨⟨fl, hfl, rfl⟩, hn⟩
  | none =>
  simp only [hc6] at h
  exact Except.noConfusion h


theorem check_ok_no_offending (m : ModelDecl)
    (hok : check_consistency m = .ok ()) : ∀ e, ¬ Offending m e := by
  unfold check_consistency at hok
  cases hc1 : firstErr m.varKeys (fun v =>
      if v ∈ m.dvarKeys then none else some (.varNoDvar v)) with
  | some e1 =>
    simp only [hc1] at hok
    exact Except.noConfusion hok
  | none =>
  simp only [hc1] at hok
  cases hc2 : firstErr m.dvarKeys (fun v =>
      if v ∈ m.varKeys then none else some (.dvarNoVar v)) with
  | some e2 =>
    simp only [hc2] at hok
    exact Except.noConfusion hok
  | none =>
  simp only [hc2] at hok
  cases hc3 : firstErr m.plots (checkPlot m) with
  | some e3 =>
    simp only [hc3] at hok
    exact Except.noConfusion hok
  | none =>
  simp only [hc3] at hok
  cases hc4 : firstErr m.editableParams (fun p =>
      if p.key ∈ m.paramKeys then none
      else some (.editableParamMissing p.key)) with
  | some e4 =>
    simp only [hc4] at hok
    exact Except.noConfusion hok
  | none =>
  simp only [hc4] at hok
  cases hc5 : firstErr m.auxVarFlows (checkAuxFlow m) with
  | some e5 =>
    simp only [hc5] at hok
    exact Except.noConfusion hok
  | none =>
  simp only [hc5] at hok
  cases hc6 : firstErr m.paramFlows (checkParamFlow m) with
  | some e6 =>
    simp only [hc6] at hok
    exact Except.noConfusion hok
  | none =>
  intro e hoff
  have s1 := (firstErr_eq_none_iff _ _).mp hc1
  have s2 := (firstErr_eq_none_iff _ _).mp hc2
  have s3 := (firstErr_eq_none_iff _ _).mp hc3
  have s4 := (firstErr_eq_none_iff _ _).mp hc4
  have s5 := (firstErr_eq_none_iff _ _).mp hc5
  have s6 := (firstErr_eq_none_iff _ _).mp hc6
  cases e with
  | varNoDvar v =>
    obtain ⟨hv, hnd⟩ := hoff
    have := s1 v hv
    by_cases hin : v ∈ m.dvarKeys
    · exact hnd hin
    · simp [hin] at this
  | dvarNoVar v =>
    obtain ⟨hv, hnd⟩ := hoff
    have := s2 v hv
    by_cases hin : v ∈ m.varKeys
    · exact hnd hin
    · simp [hin] at this
  | plotVarMissing title v =>
    obtain ⟨p, hp, _, hv, hnv, hna⟩ := hoff
    obtain ⟨hvars, _⟩ := checkPlot_eq_none (s3 p hp)
    rcases hvars v hv with h | h
    · exact hnv h
    · exact hna h
  | plotFnMissing fn =>
    obtain ⟨⟨p, hp, hfn⟩, hnf⟩ := hoff
    obtain ⟨_, hfns⟩ := checkPlot_eq_none (s3 p hp)
    exact hnf (hfns fn hfn)
  | editableParamMissing k =>
    obtain ⟨⟨p, hp, hk⟩, hnp⟩ := hoff
    have := s4 p hp
    by_cases hin : p.key ∈ m.paramKeys
    · exact hnp (hk ▸ hin)
    · simp [hin] at this
  | flowFromMissing f =>
    obtain ⟨⟨fl, hfl, hk⟩, hn⟩ := hoff
    rcases List.mem_append.mp hfl with hmem | hmem
    · exact hn (hk ▸ (checkAuxFlow_eq_none (s5 fl hmem)).1)
    · exact hn (hk ▸ (checkParamFlow_eq_none (s6 fl hmem)).1)
  | flowToMissing t =>
    obtain ⟨⟨fl, hfl, hk⟩, hn⟩ := hoff
    rcases List.mem_append.mp hfl with hmem | hmem
    · exact hn (hk ▸ (checkAuxFlow_eq_none (s5 fl hmem)).2.1)
    · exact hn (hk ▸ (checkParamFlow_eq_none (s6 fl hmem)).2.1)
  | flowAuxMissing v =>
    obtain ⟨⟨fl, hfl, hk⟩, hn⟩ := hoff
    exact hn (hk ▸ (checkAuxFlow_eq_none (s5 fl hfl)).2.2)
  | flowParamMissing p =>
    obtain ⟨⟨fl, hfl, hk⟩, hn⟩ := hoff
    exact hn (hk ▸ (checkParamFlow_eq_none (s6 fl hfl)).2.2)


/-- **C2.** For every malformed model declaration — a state variable without
a matching derivative entry, a derivative without a matching state variable,
a plot referencing a missing variable or function, an editable-parameter
descriptor with a dangling key, or a flow with a dangling endpoint or rate
reference — `run()` fails with an error that names the specific offending
key (the key is interpolated into the message), and it fails before any
time-stepping occurs: `run` returns `check_consistency`'s error without ever
reaching the integrator (by the structure of `run`, lines 128–134, the
solver is invoked only after the check returns).  Conversely a declaration
with any offending key never passes the check. -/
theorem consistency_gate (m : ModelDecl) :
    (∀ e, check_consistency m = .error e →
      Offending m e ∧
      (∃ pre post, ModelError.message e = pre ++ ModelError.key e ++ post) ∧
      (∀ (odeint : Odeint) (M : Model), M.decl = m →
        run odeint M = .error e)) ∧
    ((∃ e, Offending m e) → ∃ e, check_consistency m = .error e) := by
  constructor
  · intro e he
    refine ⟨check_error_offending m e he, ?_, ?_⟩
    · cases e with
      | varNoDvar v =>
        exact ⟨"var ", " has no matching dvar in self.calc_dvar",
          by simp [ModelError.message, ModelError.key, String.append_assoc]⟩
      | dvarNoVar v =>
        exact ⟨"dvar ", " has no matching var for self.init_var",
          by simp [ModelError.message, ModelError.key, String.append_assoc]⟩
      | plotVarMissing title v =>
        exact ⟨"plot " ++ title ++ " has var ",
          " not in self.vars nor in self.aux_vars",
          by simp [ModelError.message, ModelError.key, String.append_assoc]⟩
      | plotFnMissing fn =>
        exact ⟨"plot " ++ fn ++ " has fn ", " not in self.fn",
          by simp [ModelError.message, ModelError.key, String.append_assoc]⟩
      | editableParamMissing k =>
        exact ⟨"editable param ", " not in self.param",
          by simp [ModelError.message, ModelError.key, String.append_assoc]⟩
      | flowFromMissing f =>
        exact ⟨"flow from_key ", " not in self.var",
          by simp [ModelError.message, ModelError.key, String.append_assoc]⟩
      | flowToMissing t =>
        exact ⟨"flow to_key ", " not in self.var",
          by simp [ModelError.message, ModelError.key, String.append_assoc]⟩
      | flowAuxMissing v =>
        exact ⟨"flow aux_var ", " not in self.aux_var",
          by simp [ModelError.message, ModelError.key, String.append_assoc]⟩
      | flowParamMissing p =>
        exact ⟨"flow param ", " not in self.param",
          by simp [ModelError.message, ModelError.key, String.append_assoc]⟩
    · intro odeint M hM
      unfold run
      rw [hM, he]
  · intro ⟨e, hoff⟩
    cases hc : check_consistency m with
    | error e' => exact ⟨e', rfl⟩
    | ok u =>
      cases u
      exact absurd hoff (check_ok_no_offending m hc e)

/-- Witness for `consistency_gate` at the concrete malformed model whose
state variable `"x"` has no matching derivative entry. -/
theorem consistency_gate_witness :
    Offending malformedVarModel.decl (ModelError.varNoDvar "x") ∧
    run odeintStub malformedVarModel =
      .error (ModelError.varNoDvar "x") := by
  have hcheck : check_consistency malformedVarModel.decl =
      .error (ModelError.varNoDvar "x") := by decide
  have h := (consistency_gate malformedVarModel.decl).1 _ hcheck
  exact ⟨h.1, h.2.2 odeintStub malformedVarModel rfl⟩


theorem Dict.hasKey_eq_isSome {α : Type} (d : Dict α) (k : String) :
    Dict.hasKey d k = (Dict.get? d k).isSome := by
  induction d with
  | nil => rfl
  | cons p rest ih =>
    obtain ⟨k', v⟩ := p
    by_cases hk : k' = k <;> simp [Dict.hasKey, Dict.get?, hk, ih]

theorem Dict.get?_eq_none_of_not_mem_keys {α : Type} {d : Dict α} {k : String}
    (h : k ∉ Dict.keys d) : Dict.get? d k = none := by
  cases hg : Dict.get? d k with
  | none => rfl
  | some v =>
    exfalso
    apply h
    induction d with
    | nil => simp [Dict.get?] at hg
    | cons p rest ih =>
      obtain ⟨k', v'⟩ := p
      by_cases hk : k' = k
      · simp [hk]
      · simp only [Dict.get_cons, if_neg hk] at hg
        simp only [Dict.keys_cons, List.mem_cons]
        exact Or.inr (ih (fun hm => h (by simp [hm])) hg)

theorem appendSol_get_self {V : Type} (s : Dict (List V)) (k : String) (v : V) :
    Dict.get? (appendSol s k v) k =
      some (((Dict.get? s k).getD []) ++ [v]) := by
  unfold appendSol
  by_cases hk : Dict.hasKey s k
  · rw [if_pos hk]
    have hmem : k ∈ Dict.keys s := (Dict.hasKey_iff_mem_keys s k).mp hk
    obtain ⟨s', hs'⟩ := Option.isSome_iff_exists.mp
      (Dict.modify?_isSome_of_mem_keys _ hmem)
    rw [hs']
    simp only [Option.getD_some]
    rw [Dict.get?_modify?_self hs']
    obtain ⟨l, hl⟩ := Option.isSome_iff_exists.mp
      (Dict.get?_isSome_of_mem_keys hmem)
    rw [hl]
    rfl
  · rw [if_neg hk]
    rw [Dict.get?_set_self]
    have : Dict.get? s k = none := by
      rw [Dict.hasKey_eq_isSome] at hk
      cases hg : Dict.get? s k
      · rfl
      · rw [hg] at hk
        simp at hk
    rw [this]
    rfl

theorem appendSol_get_other {V : Type} (s : Dict (List V)) (k k₂ : String)
    (v : V) (hne : k₂ ≠ k) :
    Dict.get? (appendSol s k v) k₂ = Dict.get? s k₂ := by
  unfold appendSol
  by_cases hk : Dict.hasKey s k
  · rw [if_pos hk]
    obtain ⟨s', hs'⟩ := Option.isSome_iff_exists.mp
      (Dict.modify?_isSome_of_mem_keys _ ((Dict.hasKey_iff_mem_keys s k).mp hk))
    rw [hs']
    simp only [Option.getD_some]
    exact Dict.get?_modify?_other hs' hne
  · rw [if_neg hk]
    exact Dict.get?_set_other s k k₂ [v] hne

theorem mapped_dict_get_mem {V : Type} (f : String → V) :
    ∀ (keys : List String) (k : String), k ∈ keys →
      Dict.get? (keys.map (fun k₂ => (k₂, f k₂))) k = some (f k) := by
  intro keys
  induction keys with
  | nil => intro k hk; simp at hk
  | cons k₀ rest ih =>
    intro k hk
    by_cases h0 : k₀ = k
    · simp [Dict.get?, h0]
    · rcases List.mem_cons.mp hk with h | h
      · exact absurd h.symm h0
      · simp only [List.map_cons, Dict.get_cons, if_neg h0]
        exact ih k h

theorem mapped_dict_get_notmem {V : Type} (f : String → V)
    (keys : List String) (k : String) (hk : k ∉ keys) :
    Dict.get? (keys.map (fun k₂ => (k₂, f k₂))) k = none := by
  apply Dict.get?_eq_none_of_not_mem_keys
  simp only [Dict.keys, List.map_map]
  simpa using hk

theorem fold_append_unchanged {V : Type} :
    ∀ (aux : Dict V) (s : Dict (List V)) (k : String), k ∉ Dict.keys aux →
      Dict.get? (aux.foldl (fun s kv => appendSol s kv.1 kv.2) s) k =
        Dict.get? s k := by
  intro aux
  induction aux with
  | nil => intro s k _; rfl
  | cons p rest ih =>
    intro s k hk
    obtain ⟨k₁, v₁⟩ := p
    simp only [Dict.keys_cons, List.mem_cons, not_or] at hk
    simp only [List.foldl_cons]
    rw [ih _ k hk.2]
    exact appendSol_get_other _ _ _ _ hk.1

theorem append_fold_get_mem {V : Type} (aux : Dict V) :
    ∀ (sol : Dict (List V)) (k : String) (v : V),
      (Dict.keys aux).Nodup → Dict.get? aux k = some v →
      Dict.get? (aux.foldl (fun s kv => appendSol s kv.1 kv.2) sol) k =
        some (((Dict.get? sol k).getD []) ++ [v]) := by
  induction aux with
  | nil => intro sol k v _ hg; simp at hg
  | cons p rest ih =>
    intro sol k v hnd hg
    obtain ⟨k₀, v₀⟩ := p
    simp only [Dict.keys_cons, List.nodup_cons] at hnd
    obtain ⟨hk₀, hnd'⟩ := hnd
    simp only [List.foldl_cons]
    by_cases h0 : k₀ = k
    · subst h0
      rw [Dict.get_cons, if_pos rfl] at hg
      obtain rfl : v₀ = v := Option.some_inj.mp hg
      rw [fold_append_unchanged rest _ k₀ hk₀, appendSol_get_self]
    · simp only [Dict.get_cons, if_neg h0] at hg
      rw [ih _ k v hnd' hg, appendSol_get_other _ _ _ _ (fun h => h0 h.symm)]

theorem append_fold_get_notmem {V : Type} (aux : Dict V) :
    ∀ (sol : Dict (List V)) (k : String),
      Dict.get? aux k = none →
      Dict.get? (aux.foldl (fun s kv => appendSol s kv.1 kv.2) sol) k =
        Dict.get? sol k := by
  intro sol k hg
  refine fold_append_unchanged aux sol k (fun hm => ?_)
  have := Dict.get?_isSome_of_mem_keys hm
  rw [hg] at this
  simp at this


theorem keys_fold_append_unchanged {V : Type} (f : String → V) :
    ∀ (keys : List String) (sol : Dict (List V)) (k : String), k ∉ keys →
      Dict.get? (keys.foldl (fun s k₂ => appendSol s k₂ (f k₂)) sol) k =
        Dict.get? sol k := by
  intro keys
  induction keys with
  | nil => intro sol k _; rfl
  | cons k₁ rest ih =>
    intro sol k hk
    simp only [List.mem_cons, not_or] at hk
    simp only [List.foldl_cons]
    rw [ih _ k hk.2]
    exact appendSol_get_other _ _ _ _ hk.1

theorem keys_fold_append_get {V : Type} (f : String → V) :
    ∀ (keys : List String) (sol : Dict (List V)) (k : String),
      keys.Nodup → k ∈ keys →
      Dict.get? (keys.foldl (fun s k₂ => appendSol s k₂ (f k₂)) sol) k =
        some ((Dict.get? sol k).getD [] ++ [f k]) := by
  intro keys
  induction keys with
  | nil => intro sol k _ hk; simp at hk
  | cons k₁ rest ih =>
    intro sol k hnd hk
    simp only [List.nodup_cons] at hnd
    simp only [List.foldl_cons]
    by_cases h1 : k₁ = k
    · subst h1
      rw [keys_fold_append_unchanged f rest _ k₁ hnd.1, appendSol_get_self]
    · rcases List.mem_cons.mp hk with h | h
      · exact absurd h.symm h1
      · rw [ih _ k hnd.2 h, appendSol_get_other _ _ _ _ (fun hh => h1 hh.symm)]

theorem euler_states_length (update : ℚ → Dict Fl → Dict Fl) :
    ∀ (ts : List ℚ) (var : Dict Fl),
      (euler_states update ts var).length = ts.length := by
  intro ts
  induction ts with
  | nil => intro var; rfl
  | cons t rest ih => intro var; simp [euler_states, ih]

/-- What `crude_integrate` records: one entry per grid point for every key,
numeric (`some`) exactly at the steps where that key's value is finite and
the `None` sentinel (`none`) otherwise; the loop never stops early. -/
theorem crude_integrate_get (update : ℚ → Dict Fl → Dict Fl)
    (keys : List String) (hnd : keys.Nodup) :
    ∀ (ts : List ℚ) (var : Dict Fl) (sol : Dict (List (Option Fl)))
      (k : String), k ∈ keys → ((Dict.get? sol k).isSome ∨ ts ≠ []) →
      Dict.get? (crude_integrate update keys ts var sol).2 k =
        some ((Dict.get? sol k).getD [] ++
          (euler_states update ts var).map (fun st =>
            if ((Dict.get? st k).getD default).isfinite then
              some ((Dict.get? st k).getD default)
            else none)) := by
  intro ts
  induction ts with
  | nil =>
    intro var sol k _ hsome
    rcases hsome with hsome | hne
    · obtain ⟨l, hl⟩ := Option.isSome_iff_exists.mp hsome
      simp [crude_integrate, euler_states, hl]
    · exact absurd rfl hne
  | cons t rest ih =>
    intro var sol k hk _
    simp only [crude_integrate, euler_states]
    have hstep := keys_fold_append_get
      (fun k₂ => if ((Dict.get? (update t var) k₂).getD default).isfinite then
          some ((Dict.get? (update t var) k₂).getD default)
        else none) keys sol k hnd hk
    rw [ih (update t var) _ k hk (Or.inl (by rw [hstep]; rfl)), hstep]
    simp [List.append_assoc]


theorem Fl.add_nan (a : Fl) : a + Fl.nan = Fl.nan := by cases a <;> rfl

theorem Fl.nan_add (a : Fl) : Fl.nan + a = Fl.nan := by cases a <;> rfl

theorem Fl.mul_nan (a : Fl) : a * Fl.nan = Fl.nan := by cases a <;> rfl

theorem Fl.nan_mul (a : Fl) : Fl.nan * a = Fl.nan := by cases a <;> rfl

/-- **C3 (amended).** `crude_integrate` does not halt on a non-finite value:
for every key, the recorded trajectory always has exactly one entry per grid
point (`ts.length` entries, the full grid), each entry being the recorded
state value when it is finite at that step and the `None` sentinel exactly at
the steps where that key's own value is non-finite — the sentinel is
per-variable and per-step, not global, and entries after a failure step are
again numeric whenever that variable's value is finite there. -/
theorem crude_integrate_truncation (update : ℚ → Dict Fl → Dict Fl)
    (keys : List String) (ts : List ℚ) (var : Dict Fl) (k : String)
    (hnd : keys.Nodup) (hk : k ∈ keys) (hts : ts ≠ []) :
    Dict.get? (crude_integrate update keys ts var []).2 k =
      some ((euler_states update ts var).map (fun st =>
        if ((Dict.get? st k).getD default).isfinite then
          some ((Dict.get? st k).getD default)
        else none)) ∧
    (euler_states update ts var).length = ts.length := by
  refine ⟨?_, euler_states_length update ts var⟩
  have := crude_integrate_get update keys hnd ts var [] k hk (Or.inr hts)
  simpa using this

/-- Witness for `crude_integrate_truncation` at the concrete two-variable
model of `crude_integrate_no_halt`, key `"y"`. -/
theorem crude_integrate_truncation_witness :
    Dict.get? (crude_integrate
        (euler_update (fun t _ =>
          [("x", if t = 1 then Fl.nan else Fl.num 0), ("y", Fl.num 0)])
          (fun v => v) 1)
        ["x", "y"] [0, 1, 2, 3]
        [("x", Fl.num 1), ("y", Fl.num 2)] []).2 "y" =
      some ((euler_states
        (euler_update (fun t _ =>
          [("x", if t = 1 then Fl.nan else Fl.num 0), ("y", Fl.num 0)])
          (fun v => v) 1)
        [0, 1, 2, 3] [("x", Fl.num 1), ("y", Fl.num 2)]).map (fun st =>
        if ((Dict.get? st "y").getD default).isfinite then
          some ((Dict.get? st "y").getD default)
        else none)) ∧
    (euler_states
      (euler_update (fun t _ =>
        [("x", if t = 1 then Fl.nan else Fl.num 0), ("y", Fl.num 0)])
        (fun v => v) 1)
      [0, 1, 2, 3] [("x", Fl.num 1), ("y", Fl.num 2)]).length =
      ([0, 1, 2, 3] : List ℚ).length :=
  crude_integrate_truncation _ ["x", "y"] [0, 1, 2, 3]
    [("x", Fl.num 1), ("y", Fl.num 2)] "y"
    (by decide) (by decide) (by simp)

/-- **C3 (counterexample).** A model whose variable `"x"` becomes non-finite
at step index 1 (of grid `0,1,2,3`) while the decoupled variable `"y"` stays
finite: `crude_integrate` records the sentinel only for `"x"` (not for every
state variable), keeps stepping through the whole grid (both trajectories
have 4 > 1+1 entries), and `"y"`'s entries after the failure step are
numeric, never the sentinel — so integration does not halt at step 1 and the
claim's truncation behaviour does not occur. -/
theorem crude_integrate_no_halt :
    Dict.get? (crude_integrate
        (euler_update (fun t _ =>
          [("x", if t = 1 then Fl.nan else Fl.num 0), ("y", Fl.num 0)])
          (fun v => v) 1)
        ["x", "y"] [0, 1, 2, 3]
        [("x", Fl.num 1), ("y", Fl.num 2)] []).2 "x" =
      some [some (Fl.num 1), none, none, none] ∧
    Dict.get? (crude_integrate
        (euler_update (fun t _ =>
          [("x", if t = 1 then Fl.nan else Fl.num 0), ("y", Fl.num 0)])
          (fun v => v) 1)
        ["x", "y"] [0, 1, 2, 3]
        [("x", Fl.num 1), ("y", Fl.num 2)] []).2 "y" =
      some [some (Fl.num 2), some (Fl.num 2), some (Fl.num 2), some (Fl.num 2)] ∧
    ¬ (([some (Fl.num 2), some (Fl.num 2), some (Fl.num 2),
        some (Fl.num 2)] : List (Option Fl)).length ≤ 1 + 1) := by
  refine ⟨?_, ?_, by norm_num⟩ <;>
    norm_num [crude_integrate, euler_update, euler_states, appendSol,
      Dict.modify?, Dict.get?, Dict.hasKey, Dict.set, Dict.keys,
      Fl.add_nan, Fl.nan_add, Fl.mul_nan, Fl.nan_mul, Fl.isfinite,
      show ("x" : String) ≠ "y" from by decide,
      show ("y" : String) ≠ "x" from by decide]


theorem load_step_vars_get_notmem {V : Type} [Inhabited V]
    (sol : Dict (List V)) (i : ℕ) :
    ∀ (keys : List String) (var : Dict V) (k : String), k ∉ keys →
      Dict.get? (load_step_vars keys sol i var) k = Dict.get? var k := by
  intro keys
  induction keys with
  | nil => intro var k _; rfl
  | cons k₁ rest ih =>
    intro var k hk
    simp only [List.mem_cons, not_or] at hk
    simp only [load_step_vars, List.foldl_cons]
    rw [show (List.foldl _ _ rest : Dict V) =
      load_step_vars rest sol i
        (if Dict.hasKey sol k₁ then
          Dict.set var k₁ (((Dict.get? sol k₁).getD []).getD i default)
        else var) from rfl]
    rw [ih _ k hk.2]
    by_cases h1 : Dict.hasKey sol k₁
    · rw [if_pos h1, Dict.get?_set_other _ _ _ _ hk.1]
    · rw [if_neg h1]

theorem load_step_vars_get_mem {V : Type} [Inhabited V]
    (sol : Dict (List V)) (i : ℕ) :
    ∀ (keys : List String) (var : Dict V) (k : String), k ∈ keys →
      Dict.hasKey sol k →
      Dict.get? (load_step_vars keys sol i var) k =
        some (((Dict.get? sol k).getD []).getD i default) := by
  intro keys
  induction keys with
  | nil => intro var k hk; simp at hk
  | cons k₁ rest ih =>
    intro var k hk hsk
    simp only [load_step_vars, List.foldl_cons]
    rw [show (List.foldl _ _ rest : Dict V) =
      load_step_vars rest sol i
        (if Dict.hasKey sol k₁ then
          Dict.set var k₁ (((Dict.get? sol k₁).getD []).getD i default)
        else var) from rfl]
    by_cases hr : k ∈ rest
    · exact ih _ k hr hsk
    · have h1 : k₁ = k := by
        rcases List.mem_cons.mp hk with h | h
        · exact h.symm
        · exact absurd h hr
      subst h1
      rw [load_step_vars_get_notmem sol i rest _ k₁ hr, if_pos hsk,
        Dict.get?_set_self]

theorem load_step_vars_congr {V : Type} [Inhabited V]
    (s₁ s₂ : Dict (List V)) (i : ℕ) :
    ∀ (keys : List String) (var : Dict V),
      (∀ k ∈ keys, Dict.get? s₁ k = Dict.get? s₂ k) →
      load_step_vars keys s₁ i var = load_step_vars keys s₂ i var := by
  intro keys
  induction keys with
  | nil => intro var _; rfl
  | cons k₁ rest ih =>
    intro var h
    have h1 : Dict.get? s₁ k₁ = Dict.get? s₂ k₁ := h k₁ (by simp)
    have hh : Dict.hasKey s₁ k₁ = Dict.hasKey s₂ k₁ := by
      rw [Dict.hasKey_eq_isSome, Dict.hasKey_eq_isSome, h1]
    simp only [load_step_vars, List.foldl_cons]
    rw [show (List.foldl _ _ rest : Dict V) =
      load_step_vars rest s₁ i
        (if Dict.hasKey s₁ k₁ then
          Dict.set var k₁ (((Dict.get? s₁ k₁).getD []).getD i default)
        else var) from rfl]
    rw [show (List.foldl _ _ rest : Dict V) =
      load_step_vars rest s₂ i
        (if Dict.hasKey s₂ k₁ then
          Dict.set var k₁ (((Dict.get? s₂ k₁).getD []).getD i default)
        else var) from rfl]
    rw [ih _ (fun k hk => h k (by simp [hk])), hh, h1]

theorem recon_vars_get_notmem {V : Type} [Inhabited V]
    (keys : List String) (sol : Dict (List V)) (var : Dict V) (k : String)
    (hk : k ∉ keys) :
    ∀ n : ℕ, Dict.get? (recon_vars keys sol var n) k = Dict.get? var k := by
  intro n
  induction n with
  | zero => rfl
  | succ n ih =>
    simp only [recon_vars]
    rw [load_step_vars_get_notmem sol n keys _ k hk, ih]

/-- Loading the recorded state of index `i` into the base store is the same
store mutation the solver callback performs when handed the recorded flat
state vector of index `i`. -/
theorem fromVec_recorded_eq_load {V : Type} [Inhabited V]
    (sol : Dict (List V)) (i : ℕ) :
    ∀ (keys : List String) (var : Dict V),
      (∀ k ∈ keys, Dict.hasKey sol k) →
      (fromVec keys var (recorded_state_vec keys sol i) : Dict V) =
        load_step_vars keys sol i var := by
  intro keys
  induction keys with
  | nil => intro var _; rfl
  | cons k₁ rest ih =>
    intro var hs
    simp only [fromVec, recorded_state_vec, List.map_cons, List.zip_cons_cons,
      List.foldl_cons, load_step_vars]
    rw [if_pos (hs k₁ (by simp))]
    exact ih (Dict.set var k₁ (((Dict.get? sol k₁).getD []).getD i default))
      (fun k hk => hs k (by simp [hk]))


theorem recon_loop_succ {V : Type} [Inhabited V] (calcAux : Dict V → Dict V)
    (keys : List String) (var₀ : Dict V) (sol₀ : Dict (List V)) (n : ℕ) :
    recon_loop calcAux keys (n + 1) var₀ sol₀ =
      (load_step_vars keys (recon_loop calcAux keys n var₀ sol₀).2 n
        (recon_loop calcAux keys n var₀ sol₀).1,
       (calcAux (load_step_vars keys (recon_loop calcAux keys n var₀ sol₀).2 n
         (recon_loop calcAux keys n var₀ sol₀).1)).foldl
         (fun s kv => appendSol s kv.1 kv.2)
         (recon_loop calcAux keys n var₀ sol₀).2) := by
  unfold recon_loop
  rw [List.range_succ, List.foldl_append, List.foldl_cons, List.foldl_nil]

/-- Master characterization of the reconstructor loop: the carried state
store equals the canonical load chain `recon_vars`; entries outside the
auxiliary key set (in particular all state trajectories) are untouched; and
each auxiliary key's trajectory is exactly the per-index recomputation of
the auxiliary vector from the loaded state. -/
theorem recon_loop_spec {V : Type} [Inhabited V]
    (calcAux : Dict V → Dict V) (keys auxKeys : List String)
    (var₀ : Dict V) (sol₀ : Dict (List V))
    (HA : ∀ v, Dict.keys (calcAux v) = auxKeys)
    (HN : auxKeys.Nodup)
    (HD : ∀ b ∈ auxKeys, b ∉ keys ∧ ¬ Dict.hasKey sol₀ b) :
    ∀ n : ℕ,
      (recon_loop calcAux keys n var₀ sol₀).1 =
        recon_vars keys sol₀ var₀ n ∧
      (∀ k, k ∉ auxKeys →
        Dict.get? (recon_loop calcAux keys n var₀ sol₀).2 k =
          Dict.get? sol₀ k) ∧
      (∀ a ∈ auxKeys,
        Dict.get? (recon_loop calcAux keys n var₀ sol₀).2 a =
          if n = 0 then Dict.get? sol₀ a
          else some ((List.range n).map (fun i =>
            (Dict.get? (calcAux (recon_vars keys sol₀ var₀ (i + 1))) a).getD
              default))) := by
  intro n
  induction n with
  | zero =>
    refine ⟨rfl, fun k _ => rfl, fun a _ => ?_⟩
    simp [recon_loop]
  | succ n ih =>
    obtain ⟨ih1, ih2, ih3⟩ := ih
    have hsolkeys : ∀ k ∈ keys,
        Dict.get? (recon_loop calcAux keys n var₀ sol₀).2 k =
          Dict.get? sol₀ k := by
      intro k hk
      exact ih2 k (fun ha => (HD k ha).1 hk)
    have hvar' : load_step_vars keys (recon_loop calcAux keys n var₀ sol₀).2 n
        (recon_loop calcAux keys n var₀ sol₀).1 =
        recon_vars keys sol₀ var₀ (n + 1) := by
      rw [load_step_vars_congr _ sol₀ n keys _ hsolkeys, ih1]
      rfl
    refine ⟨?_, ?_, ?_⟩
    · rw [recon_loop_succ]
      exact hvar'
    · intro k hk
      rw [recon_loop_succ]
      dsimp only
      have hnone : Dict.get? (calcAux (load_step_vars keys
          (recon_loop calcAux keys n var₀ sol₀).2 n
          (recon_loop calcAux keys n var₀ sol₀).1)) k = none := by
        apply Dict.get?_eq_none_of_not_mem_keys
        rw [HA]
        exact hk
      rw [append_fold_get_notmem _ _ _ hnone]
      exact ih2 k hk
    · intro a ha
      rw [recon_loop_succ]
      dsimp only
      have hsome : (Dict.get? (calcAux (load_step_vars keys
          (recon_loop calcAux keys n var₀ sol₀).2 n
          (recon_loop calcAux keys n var₀ sol₀).1)) a).isSome :=
        Dict.get?_isSome_of_mem_keys (by rw [HA]; exact ha)
      obtain ⟨w, hw⟩ := Option.isSome_iff_exists.mp hsome
      have hnd' : (Dict.keys (calcAux (load_step_vars keys
          (recon_loop calcAux keys n var₀ sol₀).2 n
          (recon_loop calcAux keys n var₀ sol₀).1))).Nodup := by
        rw [HA]
        exact HN
      rw [append_fold_get_mem _ _ _ _ hnd' hw, ih3 a ha,
        if_neg (Nat.succ_ne_zero n)]
      rw [hvar'] at hw
      rw [List.range_succ, List.map_append]
      by_cases hn : n = 0
      · subst hn
        have hnone : Dict.get? sol₀ a = none := by
          have hh := (HD a ha).2
          rw [Dict.hasKey_eq_isSome] at hh
          cases hg : Dict.get? sol₀ a with
          | none => rfl
          | some l => rw [hg] at hh; simp at hh
        simp [hnone, hw]
      · rw [if_neg hn]
        simp [hw]


/-- **C5.** For a model whose auxiliary computation involves no time-delay
lookups (embedded: `calc_aux_vars` is a function of the variable store's
values — hypothesis `HP`), the auxiliary value the reconstructor records at
time index `i` — obtained by loading the recorded state values at `i` and
recomputing the auxiliary vector — equals the auxiliary value the live
solver callback computes (`live_aux`, lines 87–89) when handed the same
recorded state vector: the auxiliary vector is a pure function of the state
at that instant. -/
theorem recon_matches_live (M : Model) (keys auxKeys : List String)
    (var₀ : Dict Fl) (sol₀ : Dict (List Fl)) (n i : ℕ) (a : String)
    (HA : ∀ v, Dict.keys (M.calcAux v) = auxKeys)
    (HN : auxKeys.Nodup)
    (HD : ∀ b ∈ auxKeys, b ∉ keys ∧ ¬ Dict.hasKey sol₀ b)
    (HS : ∀ k ∈ keys, Dict.hasKey sol₀ k)
    (HP : ∀ v w, (∀ k, Dict.get? v k = Dict.get? w k) →
      M.calcAux v = M.calcAux w)
    (ha : a ∈ auxKeys) (hi : i < n) :
    ∃ l, Dict.get? (calc_aux_var_solutions M.calcAux keys n var₀ sol₀) a =
        some l ∧
      l.get? i = some ((Dict.get? (live_aux M keys var₀
        (recorded_state_vec keys sol₀ i)) a).getD default) := by
  obtain ⟨_, _, h3⟩ :=
    recon_loop_spec M.calcAux keys auxKeys var₀ sol₀ HA HN HD n
  have hcalc : M.calcAux (recon_vars keys sol₀ var₀ (i + 1)) =
      live_aux M keys var₀ (recorded_state_vec keys sol₀ i) := by
    unfold live_aux
    rw [fromVec_recorded_eq_load sol₀ i keys var₀ HS]
    apply HP
    intro k
    by_cases hk : k ∈ keys
    · have hsk := HS k hk
      rw [show recon_vars keys sol₀ var₀ (i + 1) =
        load_step_vars keys sol₀ i (recon_vars keys sol₀ var₀ i) from rfl]
      rw [load_step_vars_get_mem sol₀ i keys _ k hk hsk,
        load_step_vars_get_mem sol₀ i keys _ k hk hsk]
    · rw [show recon_vars keys sol₀ var₀ (i + 1) =
        load_step_vars keys sol₀ i (recon_vars keys sol₀ var₀ i) from rfl]
      rw [load_step_vars_get_notmem sol₀ i keys _ k hk,
        load_step_vars_get_notmem sol₀ i keys _ k hk,
        recon_vars_get_notmem keys sol₀ var₀ k hk i]
  refine ⟨(List.range n).map (fun j =>
      (Dict.get? (M.calcAux (recon_vars keys sol₀ var₀ (j + 1))) a).getD
        default), ?_, ?_⟩
  · unfold calc_aux_var_solutions
    rw [h3 a ha, if_neg (by omega : ¬ n = 0)]
  · rw [List.get?_map, List.get?_range hi]
    simp only [Option.map_some']
    rw [hcalc]

/-- Witness for `recon_matches_live` at `simpleModel`, one recorded time
point with state `x = 3`. -/
theorem recon_matches_live_witness :
    ∃ l, Dict.get? (calc_aux_var_solutions simpleModel.calcAux ["x"] 1
        [("x", Fl.num 0)] [("x", [Fl.num 3])]) "a" = some l ∧
      l.get? 0 = some ((Dict.get? (live_aux simpleModel ["x"]
        [("x", Fl.num 0)]
        (recorded_state_vec ["x"] [("x", [Fl.num 3])] 0)) "a").getD default) :=
  recon_matches_live simpleModel ["x"] ["a"]
    [("x", Fl.num 0)] [("x", [Fl.num 3])] 1 0 "a"
    (fun _ => rfl) (by decide)
    (by intro b hb
        rw [List.mem_singleton.mp hb]
        exact ⟨by decide, by decide⟩)
    (by intro k hk
        rw [List.mem_singleton.mp hk]
        decide)
    (fun _ _ _ => rfl) (by decide) (by decide)


/-- **C6 (amended).** After reconstruction, every auxiliary-variable
trajectory has the same length and time alignment as the state-variable
trajectories (one value per time index), state trajectories are untouched by
the reconstructor, and all state trajectories keep their common length.  The
reconstructor does not, however, insert missing sentinels: the auxiliary
value recorded at an index is whatever the auxiliary computation returns
from the (possibly sentinel-laden) loaded state — see
`recon_keeps_no_sentinel` for a state trajectory containing the sentinel
whose auxiliary trajectory is numeric throughout. -/
theorem recon_aux_lengths {V : Type} [Inhabited V]
    (calcAux : Dict V → Dict V) (keys auxKeys : List String)
    (var₀ : Dict V) (sol₀ : Dict (List V)) (n : ℕ)
    (HA : ∀ v, Dict.keys (calcAux v) = auxKeys)
    (HN : auxKeys.Nodup)
    (HD : ∀ b ∈ auxKeys, b ∉ keys ∧ ¬ Dict.hasKey sol₀ b)
    (hlen : ∀ k ∈ keys, ∃ tl, Dict.get? sol₀ k = some tl ∧ tl.length = n)
    (hn : 0 < n) :
    (∀ k ∈ keys,
      Dict.get? (calc_aux_var_solutions calcAux keys n var₀ sol₀) k =
        Dict.get? sol₀ k) ∧
    (∀ k ∈ keys, ∃ tl,
      Dict.get? (calc_aux_var_solutions calcAux keys n var₀ sol₀) k =
        some tl ∧ tl.length = n) ∧
    (∀ a ∈ auxKeys, ∃ l,
      Dict.get? (calc_aux_var_solutions calcAux keys n var₀ sol₀) a =
        some l ∧ l.length = n) := by
  obtain ⟨_, h2, h3⟩ :=
    recon_loop_spec calcAux keys auxKeys var₀ sol₀ HA HN HD n
  have hstate : ∀ k ∈ keys,
      Dict.get? (calc_aux_var_solutions calcAux keys n var₀ sol₀) k =
        Dict.get? sol₀ k := by
    intro k hk
    exact h2 k (fun hak => (HD k hak).1 hk)
  refine ⟨hstate, fun k hk => ?_, fun a ha => ?_⟩
  · obtain ⟨tl, htl, hlen'⟩ := hlen k hk
    exact ⟨tl, (hstate k hk).trans htl, hlen'⟩
  · refine ⟨(List.range n).map (fun i =>
      (Dict.get? (calcAux (recon_vars keys sol₀ var₀ (i + 1))) a).getD
        default), ?_, by simp⟩
    unfold calc_aux_var_solutions
    rw [h3 a ha, if_neg (by omega : ¬ n = 0)]

/-- Witness for `recon_aux_lengths` at a one-variable model whose state
trajectory `x = [some 1, None]` contains the sentinel at index 1. -/
theorem recon_aux_lengths_witness :
    (∀ k ∈ ["x"],
      Dict.get? (calc_aux_var_solutions
        (fun _ => [("a", some (Fl.num 7))]) ["x"] 2
        [("x", some (Fl.num 1))] [("x", [some (Fl.num 1), none])]) k =
        Dict.get? [("x", [some (Fl.num 1), none])] k) ∧
    (∀ k ∈ ["x"], ∃ tl,
      Dict.get? (calc_aux_var_solutions
        (fun _ => [("a", some (Fl.num 7))]) ["x"] 2
        [("x", some (Fl.num 1))] [("x", [some (Fl.num 1), none])]) k =
        some tl ∧ tl.length = 2) ∧
    (∀ a ∈ ["a"], ∃ l,
      Dict.get? (calc_aux_var_solutions
        (fun _ => [("a", some (Fl.num 7))]) ["x"] 2
        [("x", some (Fl.num 1))] [("x", [some (Fl.num 1), none])]) a =
        some l ∧ l.length = 2) :=
  recon_aux_lengths (fun _ => [("a", some (Fl.num 7))]) ["x"] ["a"]
    [("x", some (Fl.num 1))] [("x", [some (Fl.num 1), none])] 2
    (fun _ => rfl) (by decide)
    (by intro b hb
        rw [List.mem_singleton.mp hb]
        exact ⟨by decide, by decide⟩)
    (by intro k hk
        rw [List.mem_singleton.mp hk]
        exact ⟨[some (Fl.num 1), none], rfl, rfl⟩)
    (by decide)

/-- **C6 (counterexample).** The state trajectory of `"x"` is the sentinel
(`None`) at index 1, yet the reconstructor records the numeric value `7` —
not the missing sentinel — for the auxiliary variable `"a"` at that index
(the model's `calc_aux_vars` sets `a` to a constant): values at/after an
early-termination index are not sentinels. -/
theorem recon_keeps_no_sentinel :
    Dict.get? (calc_aux_var_solutions
        (fun _ => [("a", some (Fl.num 7))]) ["x"] 2
        [("x", some (Fl.num 1))] [("x", [some (Fl.num 1), none])]) "a" =
      some [some (Fl.num 7), some (Fl.num 7)] ∧
    ([some (Fl.num 1), (none : Option Fl)].get? 1 = some none) ∧
    ([some (Fl.num 7), some (Fl.num 7)].get? 1 ≠ some (none : Option Fl)) := by
  refine ⟨?_, by decide, by decide⟩
  decide


theorem set_fold_unchanged {γ : Type} (g : ℕ → γ) :
    ∀ (pairs : List (ℕ × String)) (sol : Dict γ) (k : String),
      k ∉ pairs.map Prod.snd →
      Dict.get? (pairs.foldl (fun s ik => Dict.set s ik.2 (g ik.1)) sol) k =
        Dict.get? sol k := by
  intro pairs
  induction pairs with
  | nil => intro sol k _; rfl
  | cons p rest ih =>
    intro sol k hk
    simp only [List.map_cons, List.mem_cons, not_or] at hk
    simp only [List.foldl_cons]
    rw [ih _ k hk.2, Dict.get?_set_other _ _ _ _ hk.1]

theorem set_fold_get {γ : Type} (g : ℕ → γ) :
    ∀ (pairs : List (ℕ × String)) (sol : Dict γ) (k : String),
      k ∈ pairs.map Prod.snd →
      ∃ i, Dict.get? (pairs.foldl (fun s ik => Dict.set s ik.2 (g ik.1)) sol) k =
        some (g i) := by
  intro pairs
  induction pairs with
  | nil => intro sol k hk; simp at hk
  | cons p rest ih =>
    intro sol k hk
    simp only [List.foldl_cons]
    by_cases hr : k ∈ rest.map Prod.snd
    · exact ih _ k hr
    · have hkp : p.2 = k := by
        simp only [List.map_cons, List.mem_cons] at hk
        rcases hk with h | h
        · exact h.symm
        · exact absurd h hr
      refine ⟨p.1, ?_⟩
      rw [set_fold_unchanged g rest _ k hr, hkp, Dict.get?_set_self]

/-- On a declaration that passes the consistency check, `run` reaches the
integrator: fresh times from `(time, dt)`, keys from the initial state, and
the solver output stored per key. -/
theorem run_ok (odeint : Odeint) (M : Model)
    (hcheck : check_consistency M.decl = .ok ()) :
    run odeint M = .ok ⟨float_range 0 M.time M.dt, Dict.keys M.initVar,
      scipy_integrate odeint M (Dict.keys M.initVar) M.initVar
        (float_range 0 M.time M.dt) []⟩ := by
  unfold run
  rw [hcheck]


/-- **C4 (amended).** After a successful (non-truncated) run, the time grid
is exactly `0, dt, 2·dt, …`, strictly increasing and starting at 0, fully
determined by `(time, dt)` and recomputed from them by `run`; it has exactly
`⌈time/dt⌉` entries — which equals `⌊time/dt⌋` exactly when `dt` divides
`time`, but not in general (see `float_range_not_floor`) — and every
state-variable trajectory, and every auxiliary-variable trajectory after
reconstruction, has exactly one entry per time point. -/
theorem run_shape (odeint : Odeint) (M : Model)
    (hdt : 0 < M.dt) (htime : 0 < M.time)
    (hcheck : check_consistency M.decl = .ok ())
    (Hodeint : ∀ (f : List Fl → ℚ → List Fl) (y0 : List Fl) (ts : List ℚ),
      (odeint f y0 ts).length = ts.length)
    (r : RunResult) (hrun : run odeint M = .ok r)
    (auxKeys : List String)
    (HA : ∀ v, Dict.keys (M.calcAux v) = auxKeys)
    (HN : auxKeys.Nodup)
    (HD : ∀ b ∈ auxKeys, b ∉ r.keys ∧ ¬ Dict.hasKey r.solution b) :
    r.times = (List.range (⌈M.time / M.dt⌉).toNat).map
      (fun k : ℕ => (k : ℚ) * M.dt) ∧
    r.times.length = (⌈M.time / M.dt⌉).toNat ∧
    List.Pairwise (· < ·) r.times ∧
    r.times.head? = some 0 ∧
    (∀ k ∈ r.keys, ∃ tl, Dict.get? r.solution k = some tl ∧
      tl.length = r.times.length) ∧
    (∀ (var₀ : Dict Fl) (a : String), a ∈ auxKeys → ∃ l,
      Dict.get? (calc_aux_var_solutions M.calcAux r.keys r.times.length var₀
        r.solution) a = some l ∧ l.length = r.times.length) := by
  have hr : r = ⟨float_range 0 M.time M.dt, Dict.keys M.initVar,
      scipy_integrate odeint M (Dict.keys M.initVar) M.initVar
        (float_range 0 M.time M.dt) []⟩ := by
    have h := run_ok odeint M hcheck
    rw [hrun] at h
    exact Except.ok.inj h
  subst hr
  dsimp only at HD ⊢
  have htimes : float_range 0 M.time M.dt =
      (List.range (⌈M.time / M.dt⌉).toNat).map
        (fun k : ℕ => (k : ℚ) * M.dt) := by
    rw [float_range_eq_map M.time M.dt hdt 0, sub_zero]
    exact List.map_congr_left (fun a _ => by ring)
  have hn1 : 1 ≤ (⌈M.time / M.dt⌉).toNat := by
    have : (1 : ℤ) ≤ ⌈M.time / M.dt⌉ := Int.ceil_pos.mpr (div_pos htime hdt)
    omega
  have hlen : (float_range 0 M.time M.dt).length =
      (⌈M.time / M.dt⌉).toNat := by
    rw [htimes, List.length_map, List.length_range]
  have hsolget : ∀ k ∈ Dict.keys M.initVar, ∃ tl,
      Dict.get? (scipy_integrate odeint M (Dict.keys M.initVar) M.initVar
        (float_range 0 M.time M.dt) []) k = some tl ∧
      tl.length = (float_range 0 M.time M.dt).length := by
    intro k hk
    unfold scipy_integrate
    obtain ⟨i, hi⟩ := set_fold_get
      (fun i => (odeint
        (fun y t => calc_dvar_array M (Dict.keys M.initVar) M.initVar y t)
        ((Dict.keys M.initVar).map
          (fun k₂ => (Dict.get? M.initVar k₂).getD default))
        (float_range 0 M.time M.dt)).map (fun row => row.getD i default))
      (Dict.keys M.initVar).enum [] k
      (by rw [List.enum_map_snd]; exact hk)
    refine ⟨_, hi, ?_⟩
    rw [List.length_map, Hodeint]
  refine ⟨htimes, hlen, ?_, ?_, hsolget, ?_⟩
  · rw [htimes]
    refine List.pairwise_map.mpr ?_
    refine (List.pairwise_lt_range _).imp ?_
    intro a b hab
    exact mul_lt_mul_of_pos_right (by exact_mod_cast hab) hdt
  · obtain ⟨m, hm⟩ : ∃ m, (⌈M.time / M.dt⌉).toNat = m + 1 :=
      ⟨(⌈M.time / M.dt⌉).toNat - 1, by omega⟩
    rw [htimes, hm, List.range_succ_eq_map]
    simp
  · intro var₀ a ha
    obtain ⟨_, _, h3⟩ := recon_loop_spec M.calcAux (Dict.keys M.initVar)
      auxKeys var₀
      (scipy_integrate odeint M (Dict.keys M.initVar) M.initVar
        (float_range 0 M.time M.dt) []) HA HN HD
      (float_range 0 M.time M.dt).length
    refine ⟨(List.range (float_range 0 M.time M.dt).length).map (fun i =>
      (Dict.get? (M.calcAux (recon_vars (Dict.keys M.initVar)
        (scipy_integrate odeint M (Dict.keys M.initVar) M.initVar
          (float_range 0 M.time M.dt) []) var₀ (i + 1))) a).getD default),
      ?_, ?_⟩
    · unfold calc_aux_var_solutions
      rw [h3 a ha, if_neg (by omega : ¬ (float_range 0 M.time M.dt).length = 0)]
    · rw [List.length_map, List.length_range]


/-- **C4 (counterexample).** With duration 10 and step 3, `run` produces the
time grid `0, 3, 6, 9` — 4 entries, one more than `⌊10/3⌋ = 3`: the
trajectory/grid length is `⌈duration/step⌉`, not `⌊duration/step⌋`. -/
theorem float_range_not_floor :
    run odeintStub coarseModel =
      .ok ⟨[0, 3, 6, 9], ["x"],
        [("x", [Fl.num 1, Fl.num 1, Fl.num 1, Fl.num 1])]⟩ ∧
    ([(0 : ℚ), 3, 6, 9] : List ℚ).length = 4 ∧
    ⌊(10 : ℚ) / 3⌋ = 3 ∧ (4 : ℕ) ≠ 3 := by
  have h0 : float_range 0 10 3 = [0, 3, 6, 9] := by
    rw [float_range_of_lt (by norm_num) (by norm_num),
      float_range_of_lt (by norm_num) (by norm_num),
      float_range_of_lt (by norm_num) (by norm_num),
      float_range_of_lt (by norm_num) (by norm_num),
      float_range_of_ge (by norm_num)]
    norm_num
  refine ⟨?_, rfl, ?_, by decide⟩
  · rw [run_ok odeintStub coarseModel (by decide)]
    rw [show coarseModel.time = 10 from rfl, show coarseModel.dt = 3 from rfl,
      show coarseModel.initVar = [("x", Fl.num 1)] from rfl, h0]
    simp [scipy_integrate, odeintStub, Dict.keys, Dict.set, Dict.get?]
  · rw [Int.floor_eq_iff] <;> norm_num

/-- Witness for `run_shape` at `simpleModel` (duration 1, step 1, one state
variable `"x"`, one auxiliary variable `"a"`) with the degenerate solver
stand-in `odeintStub`. -/
theorem run_shape_witness :
    ([(0 : ℚ)] : List ℚ) =
      (List.range (⌈simpleModel.time / simpleModel.dt⌉).toNat).map
        (fun k : ℕ => (k : ℚ) * simpleModel.dt) ∧
    ([(0 : ℚ)] : List ℚ).length = (⌈simpleModel.time / simpleModel.dt⌉).toNat ∧
    List.Pairwise (· < ·) ([(0 : ℚ)] : List ℚ) ∧
    ([(0 : ℚ)] : List ℚ).head? = some 0 ∧
    (∀ k ∈ ["x"], ∃ tl,
      Dict.get? [("x", [Fl.num 1])] k = some tl ∧
      tl.length = ([(0 : ℚ)] : List ℚ).length) ∧
    (∀ (var₀ : Dict Fl) (a : String), a ∈ ["a"] → ∃ l,
      Dict.get? (calc_aux_var_solutions simpleModel.calcAux ["x"]
        ([(0 : ℚ)] : List ℚ).length var₀ [("x", [Fl.num 1])]) a = some l ∧
      l.length = ([(0 : ℚ)] : List ℚ).length) := by
  have hrun : run odeintStub simpleModel =
      .ok ⟨[0], ["x"], [("x", [Fl.num 1])]⟩ := by
    have h0 : float_range 0 1 1 = [0] := by
      rw [float_range_of_lt (by norm_num) (by norm_num),
        float_range_of_ge (by norm_num)]
    rw [run_ok odeintStub simpleModel (by decide)]
    rw [show simpleModel.time = 1 from rfl, show simpleModel.dt = 1 from rfl,
      show simpleModel.initVar = [("x", Fl.num 1)] from rfl, h0]
    simp [scipy_integrate, odeintStub, Dict.keys, Dict.set, Dict.get?]
  exact run_shape odeintStub simpleModel
    (by rw [show simpleModel.dt = 1 from rfl]; norm_num)
    (by rw [show simpleModel.time = 1 from rfl]; norm_num)
    (by decide) (fun f y0 ts => by simp [odeintStub])
    ⟨[0], ["x"], [("x", [Fl.num 1])]⟩ hrun ["a"]
    (fun v => rfl) (by decide)
    (by intro b hb
        rw [List.mem_singleton.mp hb]
        exact ⟨by decide, by decide⟩)

end Modeldrop
